import Mathlib

/-!
A verification development for the concurrent directory-tree library
(`Tree.c`).  The concurrency control is erased: each public operation is
embedded as a pure function from a heap-like tree state to a result code
and a new state, following the C control flow branch by branch.  Paths are
embedded as lists of characters so that the character-level string
functions of `Tree.c` (`is_successor`, `rest_path`,
`find_last_common_predecessor`) keep their exact semantics.
-/

set_option autoImplicit false

namespace SystemPlikow

/-- A folder name and a path are both character strings. -/
abbrev Name := List Char

/-- `MAX_FOLDER_NAME_LENGTH` from `path_utils.h`. -/
def MAX_FOLDER_NAME_LENGTH : Nat := 255

/-- `MAX_PATH_LENGTH` from `path_utils.h`. -/
def MAX_PATH_LENGTH : Nat := 4095

/-- `SUCCESS` from `Tree.h`. -/
def SUCCESS : Int := 0

/-- `ESUCCESSOR` from `Tree.h`: moving a folder into its own successor. -/
def ESUCCESSOR : Int := -1

/-- `EINVAL` from `errno.h` (Linux). -/
def EINVAL : Int := 22

/-- `ENOENT` from `errno.h` (Linux). -/
def ENOENT : Int := 2

/-- `EEXIST` from `errno.h` (Linux). -/
def EEXIST : Int := 17

/-- `EBUSY` from `errno.h` (Linux). -/
def EBUSY : Int := 16

/-- `ENOTEMPTY` from `errno.h` (Linux). -/
def ENOTEMPTY : Int := 39

/-- Modelled from the spec: a valid folder-name component is 1 to
`MAX_FOLDER_NAME_LENGTH` lowercase letters `a`..`z` (`path_utils.c` is not
in the repository). -/
def valid_name (n : Name) : Bool :=
  decide (n ≠ []) && decide (n.length ≤ MAX_FOLDER_NAME_LENGTH) &&
    n.all (fun c => decide ('a' ≤ c) && decide (c ≤ 'z'))

/-- Splits the text after a path's leading slash into slash-terminated
chunks: `chunks "a/bc/"` is `some ["a", "bc"]`; `none` when the text does
not end at a slash. -/
def chunks : List Char → Option (List Name)
  | [] => some []
  | c :: t =>
    if c = '/' then (chunks t).map (([] : Name) :: ·)
    else
      match chunks t with
      | some (n :: ns) => some ((c :: n) :: ns)
      | _ => none

/-- Modelled from the spec: `is_path_valid` of the missing `path_utils.c`.
A valid path is nonempty, starts and ends with `/`, is at most
`MAX_PATH_LENGTH` characters, and consists of valid components separated
by `/`. -/
def is_path_valid (p : List Char) : Bool :=
  decide (p.length ≤ MAX_PATH_LENGTH) &&
    match p with
    | c :: t =>
      decide (c = '/') &&
        match chunks t with
        | some cs => cs.all valid_name
        | none => false
    | [] => false

/-- The text of a component list with each component ended by a slash:
`flatOf ["a", "b"]` is `"a/b/"`. -/
def flatOf (cs : List Name) : List Char :=
  (cs.map (· ++ ['/'])).flatten

/-- The path spelled by a list of components: `pathOf ["a", "b"]` is
`"/a/b/"`.  Valid paths are exactly such spellings of valid components. -/
def pathOf (cs : List Name) : List Char :=
  '/' :: flatOf cs

/-- The component-wise longest common prefix of two component lists (the
sequence of common ancestors below the root). -/
def lcpN : List Name → List Name → List Name
  | a :: as, b :: bs => if a = b then a :: lcpN as bs else []
  | _, _ => []

/-- Modelled from the spec: `split_path` of the missing `path_utils.c`.
Splits `/first/rest.../` into the first component and the remainder
beginning at the second slash; `none` when the string has no slash after
its first character (in particular for the root path). -/
def split_path (p : List Char) : Option (Name × List Char) :=
  match p with
  | [] => none
  | _ :: t =>
    match t.dropWhile (· ≠ '/') with
    | [] => none
    | r => some (t.takeWhile (· ≠ '/'), r)

/-- Modelled from the spec: `make_path_to_parent` of the missing
`path_utils.c`.  On a valid non-root path it yields the path to the
parent together with the last component; on the root path it yields
`none`.  (The tree operations only apply it after `is_path_valid`.) -/
def make_path_to_parent (p : List Char) : Option (List Char × Name) :=
  match p with
  | c :: t =>
    if c = '/' then
      match chunks t with
      | some cs =>
        match cs.getLast? with
        | some n => some (pathOf cs.dropLast, n)
        | none => none
      | none => none
    else none
  | [] => none

/-- `is_root` from `Tree.c`: the path equals `"/"`. -/
def is_root (p : List Char) : Bool := decide (p = ['/'])

/-- `is_successor` from `Tree.c`: `successor_path` strictly extends
`path` (strictly longer and agreeing on the first `path.length`
characters). -/
def is_successor (path successor_path : List Char) : Bool :=
  decide (path.length < successor_path.length) &&
    decide (successor_path.take path.length = path)

/-- `rest_path` from `Tree.c`: the remainder of `successor_path` after
`path`, kept together with the slash that ends `path` (for `path = "/a/"`
and `successor_path = "/a/b/c/"` the result is `"/b/c/"`). -/
def rest_path (path successor_path : List Char) : List Char :=
  successor_path.drop (path.length - 1)

/-- `find_last_common_predecessor` from `Tree.c`: the character-wise
longest common prefix of the two strings. -/
def find_last_common_predecessor : List Char → List Char → List Char
  | a :: as, b :: bs => if a = b then a :: find_last_common_predecessor as bs else []
  | _, _ => []

/-- Modelled from the spec: the listing renderer
(`make_map_contents_string` is not in the repository).  Child names are
joined with a single `,` separator, the empty folder rendering as the
empty string. -/
def joinNames : List Name → List Char
  | [] => []
  | [n] => n
  | n :: t => n ++ ',' :: joinNames t

/-- Parses a rendered listing back into the list of names: the inverse of
`joinNames` on lists of nonempty `,`-free names. -/
def splitNames : List Char → List Name
  | [] => []
  | c :: t =>
    if c = ',' then [] :: splitNames t
    else
      match splitNames t with
      | [] => [[c]]
      | n :: ns => (c :: n) :: ns

/-! ## The tree state

`Tree.c` builds the tree from `malloc`ed nodes that hold a child map
(name to node pointer) and a parent pointer.  The embedding replaces
pointers by numeric ids allocated from a counter; the heap becomes an
association list from ids to nodes. -/

/-- A node of `struct Tree`: the child map and the parent pointer.  The
synchronizer fields (mutex, condition variables, counters) have no
sequential content and are erased. -/
structure Node where
  map : List (Name × Nat)
  parent : Option Nat
  deriving DecidableEq

/-- The heap of allocated nodes plus the allocation counter.  The root
node always has id `0`. -/
structure TreeState where
  nodes : List (Nat × Node)
  next : Nat
  deriving DecidableEq

/-- Modelled from the spec: `hmap_get` of the missing `HashMap.c` — the
first binding of the key in the association list. -/
def hmap_get (k : Name) : List (Name × Nat) → Option Nat
  | [] => none
  | (k', v) :: t => if k' = k then some v else hmap_get k t

/-- Modelled from the spec: `hmap_insert` of the missing `HashMap.c` for
a key not yet present — a new binding. -/
def hmap_insert (k : Name) (v : Nat) (m : List (Name × Nat)) : List (Name × Nat) :=
  (k, v) :: m

/-- Modelled from the spec: `hmap_remove` of the missing `HashMap.c` —
drops the first binding of the key. -/
def hmap_remove (k : Name) : List (Name × Nat) → List (Name × Nat)
  | [] => []
  | (k', v) :: t => if k' = k then t else (k', v) :: hmap_remove k t

/-- Modelled from the spec: `make_map_contents_string` — the child names
joined by `,`, in map order. -/
def make_map_contents_string (m : List (Name × Nat)) : List Char :=
  joinNames (m.map (·.1))

/-- The first node bound to an id in a heap list. -/
def storeGet (id : Nat) : List (Nat × Node) → Option Node
  | [] => none
  | (k, v) :: t => if k = id then some v else storeGet id t

/-- Dereferences a node id in the heap. -/
def getNode (s : TreeState) (id : Nat) : Option Node :=
  storeGet id s.nodes

/-- Updates the node stored under an id (no effect on absent ids). -/
def setNode (s : TreeState) (id : Nat) (f : Node → Node) : TreeState :=
  { s with nodes := s.nodes.map (fun e => if e.1 = id then (e.1, f e.2) else e) }

/-- Removes a node id from the heap (the effect of `tree_free` on a
childless node). -/
def delNode (s : TreeState) (id : Nat) : TreeState :=
  { s with nodes := s.nodes.filter (fun e => decide (e.1 ≠ id)) }

/-- `hmap_get` on the child map of a node: the id of the named child. -/
def child (s : TreeState) (id : Nat) (n : Name) : Option Nat :=
  match getNode s id with
  | none => none
  | some nd => hmap_get n nd.map

/-- `tree_new` from `Tree.c`: a heap holding only the root — empty map,
no parent. -/
def tree_new : TreeState :=
  { nodes := [(0, { map := [], parent := none })], next := 1 }

/-- The character machine behind `lock_path`: scans the text after the
skipped leading character, accumulating the current component, and steps
into the named child at each slash; at the end of the text it stops at
the current node (the final component of a well-formed path having been
consumed at its terminating slash). -/
def walkTail (s : TreeState) : Nat → Name → List Char → Option Nat
  | id, _, [] => some id
  | id, acc, c :: t =>
    if c = '/' then
      match child s id acc with
      | none => none
      | some sub => walkTail s sub [] t
    else walkTail s id (acc ++ [c]) t

/-- The functional content of `read_lock_path` and `read_write_lock_path`
from `Tree.c`: both walk the same components from the same node and
return the same node; they differ only in the lock mode taken at the
final node, which the sequential embedding erases.  The definition is a
structural character scan; `lock_path_eq` below shows it satisfies the
`split_path` recursion the C code is written with. -/
def lock_path (s : TreeState) (id : Nat) (p : List Char) : Option Nat :=
  match p with
  | [] => some id
  | _ :: t => walkTail s id [] t

theorem walkTail_eq (s : TreeState) (t : List Char) :
    ∀ (id : Nat) (acc : Name),
      walkTail s id acc t =
        match t.dropWhile (· ≠ '/') with
        | [] => some id
        | _ :: r =>
          match child s id (acc ++ t.takeWhile (· ≠ '/')) with
          | none => none
          | some sub => walkTail s sub [] r := by
  induction t with
  | nil => intro id acc; rfl
  | cons c t ih =>
    intro id acc
    by_cases hc : c = '/'
    · subst hc
      simp [walkTail, List.dropWhile, List.takeWhile]
    · have hc' : (decide (c ≠ '/')) = true := by simp [hc]
      calc walkTail s id acc (c :: t) = walkTail s id (acc ++ [c]) t := by
            simp [walkTail, hc]
        _ = _ := by
            rw [ih id (acc ++ [c])]
            simp [List.dropWhile, List.takeWhile, hc', List.append_assoc]

/-- `lock_path` satisfies the recursion of `read_lock_path` in `Tree.c`:
split off the first component, return the current node when there is
none, miss when the child is absent, else recurse on the remainder. -/
theorem lock_path_eq (s : TreeState) (id : Nat) (p : List Char) :
    lock_path s id p =
      match split_path p with
      | none => some id
      | some (c, rest) =>
        match child s id c with
        | none => none
        | some sub => lock_path s sub rest := by
  cases p with
  | nil => rfl
  | cons x t =>
    show walkTail s id [] t = _
    rw [walkTail_eq]
    simp only [split_path]
    cases hd : t.dropWhile (· ≠ '/') with
    | nil => rfl
    | cons y r => simp only [List.nil_append]; rfl

/-- The functional content of `read_write_lock_path_root_excluding` from
`Tree.c`: the walk starts below an already locked node.  At the boundary
node the C code looks up a component even when `split_path` found none,
reading an uninitialized buffer; that case is unreachable from
`tree_move` (which always passes a string of length at least 2 ending in
`/`) and is modelled as a miss.  Past the first step the function
coincides with `lock_path`, matching the C recursion at nodes other than
the boundary (on the cyclic heaps that `tree_move` never produces the C
walk could revisit the boundary; the embedding ignores that case). -/
def lock_path_root_excluding (s : TreeState) (root : Nat) (p : List Char) : Option Nat :=
  match split_path p with
  | none => none
  | some (c, rest) =>
    match child s root c with
    | none => none
    | some sub => lock_path s sub rest

/-- `tree_list` from `Tree.c`, with the read locks erased.  The C code
dereferences the node returned by `read_lock_path` directly; a dangling
id (impossible on the states the library builds) renders as `none`. -/
def tree_list (s : TreeState) (path : List Char) : Option (List Char) :=
  if ¬ is_path_valid path then none
  else
    match lock_path s 0 path with
    | none => none
    | some id =>
      match getNode s id with
      | none => none
      | some nd => some (make_map_contents_string nd.map)

/-- `tree_create` from `Tree.c`.  The success branch condenses the C
sequence `tree_new(); hmap_insert(parent->map, component, new);
new->parent = parent` into the resulting heap: a fresh node with an empty
map whose parent pointer names the parent, bound in the parent's map.
The `make_path_to_parent` miss cannot occur on a valid non-root path; the
C code would pass `NULL` on, so the branch is modelled as the preceding
validity rejection. -/
def tree_create (s : TreeState) (path : List Char) : Int × TreeState :=
  if ¬ is_path_valid path then (EINVAL, s)
  else if is_root path then (EEXIST, s)
  else
    match make_path_to_parent path with
    | none => (EINVAL, s)
    | some (path_to_parent, component) =>
      match lock_path s 0 path_to_parent with
      | none => (ENOENT, s)
      | some parent =>
        match child s parent component with
        | some _ => (EEXIST, s)
        | none =>
          (SUCCESS,
            { nodes := (s.next, { map := [], parent := some parent }) ::
                (setNode s parent
                  (fun nd => { nd with map := hmap_insert component s.next nd.map })).nodes,
              next := s.next + 1 })

/-- `tree_remove` from `Tree.c`.  `subtree_wait` has no sequential
content.  `tree_free` on the removed node deletes just that id: its map
was observed empty. -/
def tree_remove (s : TreeState) (path : List Char) : Int × TreeState :=
  if ¬ is_path_valid path then (EINVAL, s)
  else
    match make_path_to_parent path with
    | none => (EBUSY, s)
    | some (path_to_parent, component) =>
      match lock_path s 0 path_to_parent with
      | none => (ENOENT, s)
      | some parent =>
        match child s parent component with
        | none => (ENOENT, s)
        | some node =>
          match getNode s node with
          | none => (ENOENT, s)
          | some nd =>
            if nd.map ≠ [] then (ENOTEMPTY, s)
            else
              (SUCCESS,
                delNode (setNode s parent
                  (fun nd' => { nd' with map := hmap_remove component nd'.map })) node)

/-- `tree_move` from `Tree.c`, branch by branch: the validity and root
checks, the `is_successor` early returns, the equal-paths case, the
descent to the character-wise common prefix of the two parent paths, the
two relative descents, and the final two-map mutation.  The dead second
`source = target` test of the C code is kept.  The lookup of the node
found by `hmap_get` is inlined where the C code dereferences the
pointer. -/
def tree_move (s : TreeState) (source target : List Char) : Int × TreeState :=
  if ¬ is_path_valid source ∨ ¬ is_path_valid target then (EINVAL, s)
  else if is_root source then (EBUSY, s)
  else if is_root target then (EEXIST, s)
  else if is_successor source target then (ESUCCESSOR, s)
  else if source = target then
    match lock_path s 0 source with
    | some _ => (SUCCESS, s)
    | none => (ENOENT, s)
  else if is_successor target source then
    match lock_path s 0 source with
    | some _ => (EEXIST, s)
    | none => (ENOENT, s)
  else
    match make_path_to_parent source with
    | none => (EBUSY, s)
    | some (path_to_source_parent, source_name) =>
      match make_path_to_parent target with
      | none => (EEXIST, s)
      | some (path_to_target_parent, target_name) =>
        match lock_path s 0
            (find_last_common_predecessor path_to_source_parent path_to_target_parent) with
        | none => (ENOENT, s)
        | some lcp =>
          match (if 1 < (rest_path
                   (find_last_common_predecessor path_to_source_parent path_to_target_parent)
                   path_to_source_parent).length then
                   lock_path_root_excluding s lcp (rest_path
                     (find_last_common_predecessor path_to_source_parent path_to_target_parent)
                     path_to_source_parent)
                 else some lcp) with
          | none => (ENOENT, s)
          | some source_parent =>
            match child s source_parent source_name with
            | none => (ENOENT, s)
            | some source_node =>
              if source = target then (SUCCESS, s)
              else
                match (if 1 < (rest_path
                         (find_last_common_predecessor path_to_source_parent path_to_target_parent)
                         path_to_target_parent).length then
                         lock_path_root_excluding s lcp (rest_path
                           (find_last_common_predecessor path_to_source_parent path_to_target_parent)
                           path_to_target_parent)
                       else some lcp) with
                | none => (ENOENT, s)
                | some target_parent =>
                  match child s target_parent target_name with
                  | some _ => (EEXIST, s)
                  | none =>
                    (SUCCESS,
                      setNode
                        (setNode
                          (setNode s source_parent
                            (fun nd => { nd with map := hmap_remove source_name nd.map }))
                          target_parent
                          (fun nd => { nd with
                            map := hmap_insert target_name source_node nd.map }))
                        source_node
                        (fun nd => { nd with parent := some target_parent }))

/-- Resolves a component list by child-map lookups: the node named by a
path given as components. -/
def resolveC (s : TreeState) : Nat → List Name → Option Nat
  | id, [] => some id
  | id, n :: t =>
    match child s id n with
    | none => none
    | some c => resolveC s c t

/-- A component path names an existing node. -/
def pathExists (s : TreeState) (cs : List Name) : Prop :=
  ∃ id, resolveC s 0 cs = some id

instance (s : TreeState) (cs : List Name) : Decidable (pathExists s cs) := by
  unfold pathExists
  exact match resolveC s 0 cs with
  | some id => isTrue ⟨id, rfl⟩
  | none => isFalse (by simp)

/-- The state used to refute C10: the fresh tree after creating `/ab/`,
`/ac/`, `/ac/t/`, `/b/`, `/b/s/`, `/c/` and `/c/t/` in that order. -/
def c10_state : TreeState :=
  (tree_create
    (tree_create
      (tree_create
        (tree_create
          (tree_create
            (tree_create
              (tree_create tree_new ("/ab/").data).2
              ("/ac/").data).2
            ("/ac/t/").data).2
          ("/b/").data).2
        ("/b/s/").data).2
      ("/c/").data).2
    ("/c/t/").data).2

/-! ## Well-formed states -/

/-- A child edge in the heap: node `p` maps name `n` to node `c`. -/
def Edge (s : TreeState) (p : Nat) (n : Name) (c : Nat) : Prop :=
  ∃ nd, getNode s p = some nd ∧ (n, c) ∈ nd.map

/-- A node whose chain of parent pointers reaches the root. -/
inductive Grounded (s : TreeState) : Nat → Prop
  | root : Grounded s 0
  | step : ∀ (id : Nat) (nd : Node) (p : Nat), getNode s id = some nd →
      nd.parent = some p → Grounded s p → Grounded s id

/-- Well-formedness of a heap state: the invariants the spec claims for
every reachable state, together with the bookkeeping (fresh allocation
counter, grounded parent chains) needed to re-establish them after every
operation. -/
structure WF (s : TreeState) : Prop where
  nodupIds : (s.nodes.map (·.1)).Nodup
  root_present : ∃ nd, getNode s 0 = some nd ∧ nd.parent = none
  maps_nodup : ∀ id nd, getNode s id = some nd → (nd.map.map (·.1)).Nodup
  names_valid : ∀ id nd, getNode s id = some nd → ∀ e ∈ nd.map, valid_name e.1 = true
  edge_down : ∀ id nd, getNode s id = some nd → ∀ e ∈ nd.map,
    e.2 ≠ 0 ∧ ∃ cnd, getNode s e.2 = some cnd ∧ cnd.parent = some id
  values_nodup : ∀ id nd, getNode s id = some nd → (nd.map.map (·.2)).Nodup
  edge_up : ∀ id nd, getNode s id = some nd → id ≠ 0 →
    ∃ p pnd, nd.parent = some p ∧ getNode s p = some pnd ∧ ∃ n, (n, id) ∈ pnd.map
  grounded : ∀ id nd, getNode s id = some nd → Grounded s id
  fresh : ∀ id nd, getNode s id = some nd → id < s.next

/-- The states the library can build: the fresh tree and everything an
arbitrary sequence of `tree_create`, `tree_remove` and `tree_move` calls
(with arbitrary string arguments) produces from it. -/
inductive Reachable : TreeState → Prop
  | init : Reachable tree_new
  | create : ∀ {s} (p : List Char), Reachable s → Reachable (tree_create s p).2
  | remove : ∀ {s} (p : List Char), Reachable s → Reachable (tree_remove s p).2
  | move : ∀ {s} (a b : List Char), Reachable s → Reachable (tree_move s a b).2

/-- The state invariant claimed for every reachable state: every non-root
node hangs in its parent's child map under exactly one name with its
parent pointer pointing back (I1); no child map repeats a name (I2); and
the graph reachable from the root is a tree — the root is nobody's child,
no two map entries anywhere share a child node (no shared subtrees), and
no nonempty child descent returns to its starting node (no cycles). -/
structure Invariant (s : TreeState) : Prop where
  back_link : ∀ id nd, getNode s id = some nd → id ≠ 0 →
    ∃ p pnd n, nd.parent = some p ∧ getNode s p = some pnd ∧
      (n, id) ∈ pnd.map ∧ (∀ m, (m, id) ∈ pnd.map → m = n)
  maps_nodup : ∀ id nd, getNode s id = some nd → (nd.map.map (·.1)).Nodup
  root_not_child : ∀ p n, ¬ Edge s p n 0
  no_sharing : ∀ p1 n1 p2 n2 c, Edge s p1 n1 c → Edge s p2 n2 c →
    p1 = p2 ∧ n1 = n2
  no_cycle : ∀ id cs, resolveC s id cs = some id → cs = []

/-! ## Properties of the path functions -/

theorem flatOf_nil : flatOf [] = [] := rfl

theorem flatOf_cons (n : Name) (cs : List Name) :
    flatOf (n :: cs) = n ++ '/' :: flatOf cs := by
  simp [flatOf]

theorem flatOf_append (a b : List Name) :
    flatOf (a ++ b) = flatOf a ++ flatOf b := by
  simp [flatOf]

/-- A valid name is nonempty and contains neither `/` nor `,`. -/
theorem valid_name_facts {n : Name} (h : valid_name n = true) :
    n ≠ [] ∧ '/' ∉ n ∧ ',' ∉ n := by
  simp only [valid_name, Bool.and_eq_true, decide_eq_true_eq, List.all_eq_true] at h
  obtain ⟨⟨hne, _⟩, hall⟩ := h
  exact ⟨hne, fun hm => absurd (hall '/' hm) (by decide),
    fun hm => absurd (hall ',' hm) (by decide)⟩

theorem chunks_name {n : Name} (hn : '/' ∉ n) (r : List Char) :
    chunks (n ++ '/' :: r) = (chunks r).map (n :: ·) := by
  induction n with
  | nil => simp [chunks]
  | cons c n ih =>
    have hc : c ≠ '/' := by intro h; exact hn (h ▸ List.mem_cons_self c n)
    have hn' : '/' ∉ n := fun h => hn (List.mem_cons_of_mem c h)
    simp only [List.cons_append, chunks, if_neg hc, List.append_eq]
    rw [ih hn']
    cases chunks r <;> simp

theorem chunks_flatOf {cs : List Name} (h : ∀ n ∈ cs, '/' ∉ n) :
    chunks (flatOf cs) = some cs := by
  induction cs with
  | nil => rfl
  | cons n cs ih =>
    rw [flatOf_cons, chunks_name (h n (List.mem_cons_self n cs)),
      ih (fun m hm => h m (List.mem_cons_of_mem n hm))]
    rfl

theorem chunks_sound : ∀ {l : List Char} {cs : List Name},
    chunks l = some cs → l = flatOf cs := by
  intro l
  induction l with
  | nil =>
    intro cs h
    simp only [chunks, Option.some.injEq] at h
    subst h
    rfl
  | cons c t ih =>
    intro cs h
    simp only [chunks] at h
    by_cases hc : c = '/'
    · rw [if_pos hc] at h
      cases ht : chunks t with
      | none => rw [ht] at h; simp at h
      | some cs' =>
        rw [ht] at h
        simp only [Option.map_some', Option.some.injEq] at h
        have htf : t = flatOf cs' := ih ht
        simp [← h, flatOf_cons, htf, hc]
    · rw [if_neg hc] at h
      cases ht : chunks t with
      | none => rw [ht] at h; simp at h
      | some cs' =>
        rw [ht] at h
        cases cs' with
        | nil => simp at h
        | cons n ns =>
          simp only [Option.some.injEq] at h
          have htf : t = flatOf (n :: ns) := ih ht
          rw [flatOf_cons] at htf
          simp [← h, flatOf_cons, htf]

/-- Spelling valid components yields a valid path (when short enough). -/
theorem valid_intro {cs : List Name} (h : ∀ n ∈ cs, valid_name n = true)
    (hl : (pathOf cs).length ≤ MAX_PATH_LENGTH) :
    is_path_valid (pathOf cs) = true := by
  have hs : ∀ n ∈ cs, '/' ∉ n := fun n hn => (valid_name_facts (h n hn)).2.1
  simp only [is_path_valid, pathOf, Bool.and_eq_true, decide_eq_true_eq]
  refine ⟨by simpa [pathOf] using hl, trivial, ?_⟩
  rw [chunks_flatOf hs]
  simpa [List.all_eq_true] using h

/-- A valid path is the spelling of a list of valid components. -/
theorem valid_elim {p : List Char} (h : is_path_valid p = true) :
    ∃ cs, p = pathOf cs ∧ (∀ n ∈ cs, valid_name n = true) ∧
      p.length ≤ MAX_PATH_LENGTH := by
  simp only [is_path_valid, Bool.and_eq_true, decide_eq_true_eq] at h
  obtain ⟨hl, h⟩ := h
  cases p with
  | nil => simp at h
  | cons c t =>
    simp only [Bool.and_eq_true, decide_eq_true_eq] at h
    obtain ⟨hc, h⟩ := h
    cases ht : chunks t with
    | none => rw [ht] at h; simp at h
    | some cs =>
      rw [ht] at h
      refine ⟨cs, ?_, by simpa [List.all_eq_true] using h, hl⟩
      rw [pathOf, ← chunks_sound ht, hc]

theorem takeWhile_name {n : Name} (hn : '/' ∉ n) (r : List Char) :
    (n ++ '/' :: r).takeWhile (· ≠ '/') = n ∧
      (n ++ '/' :: r).dropWhile (· ≠ '/') = '/' :: r := by
  induction n with
  | nil => simp [List.takeWhile, List.dropWhile]
  | cons c n ih =>
    have hc : c ≠ '/' := fun h => hn (h ▸ List.mem_cons_self c n)
    obtain ⟨h1, h2⟩ := ih (fun h => hn (List.mem_cons_of_mem c h))
    simp only [ne_eq, decide_not] at h1 h2
    simp only [List.cons_append, List.takeWhile_cons, List.dropWhile_cons, ne_eq, decide_not]
    simp [hc, h1, h2]

theorem split_path_shape {n : Name} (hn : '/' ∉ n) (x : Char) (r : List Char) :
    split_path (x :: (n ++ '/' :: r)) = some (n, '/' :: r) := by
  obtain ⟨h1, h2⟩ := takeWhile_name hn r
  simp only [split_path]
  rw [h2, h1]

theorem split_path_none {t : List Char} (ht : '/' ∉ t) (x : Char) :
    split_path (x :: t) = none := by
  have h2 : t.dropWhile (· ≠ '/') = [] := by
    rw [List.dropWhile_eq_nil_iff]
    intro y hy
    simp only [ne_eq, decide_eq_true_eq]
    intro h
    exact ht (h ▸ hy)
  simp only [split_path]
  rw [h2]

/-- Walking a spelled component path, with possibly a final slash-free
fragment appended, reaches the node the components name: the fragment
never closes a component, so the walk stops where the last slash put
it. -/
theorem lock_path_app {sh : List Char} (hsh : '/' ∉ sh) :
    ∀ (K : List Name), (∀ n ∈ K, '/' ∉ n) →
      ∀ (s : TreeState) (id : Nat),
        lock_path s id (pathOf K ++ sh) = resolveC s id K := by
  intro K
  induction K with
  | nil =>
    intro _ s id
    rw [show pathOf [] ++ sh = '/' :: sh from rfl, lock_path_eq, split_path_none hsh]
    rfl
  | cons c K ih =>
    intro hK s id
    have hc : '/' ∉ c := hK c (List.mem_cons_self c K)
    have h1 : pathOf (c :: K) ++ sh = '/' :: (c ++ '/' :: (flatOf K ++ sh)) := by
      simp [pathOf, flatOf_cons]
    rw [h1, lock_path_eq, split_path_shape hc]
    have h2 : ('/' : Char) :: (flatOf K ++ sh) = pathOf K ++ sh := by simp [pathOf]
    show (match child s id c with
      | none => none
      | some sub => lock_path s sub ('/' :: (flatOf K ++ sh))) = resolveC s id (c :: K)
    simp only [resolveC]
    cases hch : child s id c with
    | none => rfl
    | some sub =>
      show lock_path s sub ('/' :: (flatOf K ++ sh)) = resolveC s sub K
      rw [h2, ih (fun n hn => hK n (List.mem_cons_of_mem c hn)) s sub]

/-- Walking a spelled component path reaches the node it names. -/
theorem lock_path_pathOf {K : List Name} (hK : ∀ n ∈ K, '/' ∉ n)
    (s : TreeState) (id : Nat) :
    lock_path s id (pathOf K) = resolveC s id K := by
  have := @lock_path_app [] (by simp) K hK s id
  simpa using this

theorem make_path_to_parent_concat {cs : List Name} {n : Name}
    (h : ∀ m ∈ cs, '/' ∉ m) (hn : '/' ∉ n) :
    make_path_to_parent (pathOf (cs ++ [n])) = some (pathOf cs, n) := by
  have hall : ∀ m ∈ cs ++ [n], '/' ∉ m := by
    intro m hm
    rcases List.mem_append.mp hm with h1 | h1
    · exact h m h1
    · simp at h1; exact h1 ▸ hn
  show make_path_to_parent ('/' :: flatOf (cs ++ [n])) = _
  simp only [make_path_to_parent, if_pos rfl]
  rw [chunks_flatOf hall]
  simp [List.getLast?_concat, List.dropLast_concat]

theorem make_path_to_parent_root :
    make_path_to_parent (pathOf []) = none := by
  simp [make_path_to_parent, pathOf, flatOf, chunks]

theorem resolveC_append (s : TreeState) :
    ∀ (xs ys : List Name) (id : Nat),
      resolveC s id (xs ++ ys) =
        match resolveC s id xs with
        | none => none
        | some m => resolveC s m ys := by
  intro xs
  induction xs with
  | nil => intro ys id; rfl
  | cons x xs ih =>
    intro ys id
    simp only [List.cons_append, resolveC]
    cases child s id x with
    | none => rfl
    | some c => exact ih ys c

theorem flcp_nil_left (b : List Char) : find_last_common_predecessor [] b = [] := by
  cases b <;> rfl

theorem flcp_nil_right (a : List Char) : find_last_common_predecessor a [] = [] := by
  cases a <;> rfl

theorem flcp_append (x a b : List Char) :
    find_last_common_predecessor (x ++ a) (x ++ b) =
      x ++ find_last_common_predecessor a b := by
  induction x with
  | nil => rfl
  | cons c x ih => simp [find_last_common_predecessor, ih]

/-- On two slash-terminated texts whose leading names differ, the
character-wise common prefix stops inside the names: a shared name prefix
is followed either by two different letters or by a slash against a
letter. -/
theorem flcp_names : ∀ {a b : Name}, a ≠ b → '/' ∉ a → '/' ∉ b →
    ∀ (ra rb : List Char),
      find_last_common_predecessor (a ++ '/' :: ra) (b ++ '/' :: rb) =
        find_last_common_predecessor a b := by
  intro a
  induction a with
  | nil =>
    intro b hab _ hb ra rb
    cases b with
    | nil => exact absurd rfl hab
    | cons y bs =>
      have hy : y ≠ '/' := fun h => hb (h ▸ List.mem_cons_self y bs)
      rw [flcp_nil_left]
      simp only [List.nil_append, List.cons_append, find_last_common_predecessor]
      rw [if_neg (Ne.symm hy)]
  | cons x as ih =>
    intro b hab ha hb ra rb
    have hx : x ≠ '/' := fun h => ha (h ▸ List.mem_cons_self x as)
    cases b with
    | nil =>
      rw [flcp_nil_right]
      simp only [List.cons_append, List.nil_append, find_last_common_predecessor]
      rw [if_neg hx]
    | cons y bs =>
      by_cases hxy : x = y
      · subst hxy
        have hab' : as ≠ bs := fun h => hab (h ▸ rfl)
        have ha' : '/' ∉ as := fun h => ha (List.mem_cons_of_mem x h)
        have hb' : '/' ∉ bs := fun h => hb (List.mem_cons_of_mem x h)
        simp only [List.cons_append, find_last_common_predecessor, List.append_eq,
          eq_self_iff_true, if_true]
        rw [ih hab' ha' hb' ra rb]
      · simp only [List.cons_append, find_last_common_predecessor]
        rw [if_neg hxy, if_neg hxy]

theorem rest_path_concat (u : List Char) (x : Char) (z : List Char) :
    rest_path (u ++ [x]) (u ++ [x] ++ z) = x :: z := by
  have h1 : (u ++ [x]).length - 1 = u.length := by simp
  simp only [rest_path, h1, List.append_assoc, List.singleton_append, List.drop_left]

/-- Every spelled path ends with a slash. -/
theorem pathOf_concat (K : List Name) : ∃ u, pathOf K = u ++ ['/'] := by
  induction K with
  | nil => exact ⟨[], rfl⟩
  | cons n K ih =>
    obtain ⟨u, hu⟩ := ih
    refine ⟨('/' :: n) ++ u, ?_⟩
    have h1 : pathOf (n :: K) = ('/' :: n) ++ pathOf K := by
      simp [pathOf, flatOf_cons]
    rw [h1, hu, List.append_assoc]

theorem rest_path_pathOf (K X : List Name) :
    rest_path (pathOf K) (pathOf (K ++ X)) = pathOf X := by
  obtain ⟨u, hu⟩ := pathOf_concat K
  have h1 : pathOf (K ++ X) = pathOf K ++ flatOf X := by
    simp [pathOf, flatOf_append]
  rw [h1, hu, rest_path_concat]
  have h2 : pathOf K = u ++ ['/'] := hu
  have h3 : pathOf X = '/' :: flatOf X := rfl
  rw [h3]

/-- The first step of `lock_path_root_excluding` looks up the text
before the first slash (before the second character) as a child of the
boundary node, then walks the remaining components with `lock_path`. -/
theorem lock_path_root_excluding_flat {n : Name} (hn : '/' ∉ n) {Ns : List Name}
    (hNs : ∀ m ∈ Ns, '/' ∉ m) (s : TreeState) (root : Nat) (x : Char) :
    lock_path_root_excluding s root (x :: flatOf (n :: Ns)) =
      match child s root n with
      | none => none
      | some sub => resolveC s sub Ns := by
  have h1 : x :: flatOf (n :: Ns) = x :: (n ++ '/' :: flatOf Ns) := by rw [flatOf_cons]
  rw [h1]
  simp only [lock_path_root_excluding]
  rw [split_path_shape hn]
  show (match child s root n with
    | none => none
    | some sub => lock_path s sub ('/' :: flatOf Ns)) = _
  cases hch : child s root n with
  | none => rfl
  | some sub =>
    show lock_path s sub ('/' :: flatOf Ns) = resolveC s sub Ns
    exact lock_path_pathOf hNs s sub

theorem valid_ne_nil {p : List Char} (h : is_path_valid p = true) : p ≠ [] := by
  intro he
  subst he
  simp [is_path_valid] at h

/-- C2: refuted on the code.  For `source = "/ab/x/"` and
`target = "/ac/y/"` the parent paths are `"/ab/"` and `"/ac/"`, valid and
distinct with neither a prefix of the other, yet
`find_last_common_predecessor` returns the character string `"/a"`, which
is not a valid path, does not end in `/`, and differs from `"/"`, the
longest path prefix common to both — contradicting the function's own
documenting comment. -/
theorem c2_flcp_not_a_path :
    is_path_valid ("/ab/").data = true ∧ is_path_valid ("/ac/").data = true ∧
    make_path_to_parent ("/ab/x/").data = some (("/ab/").data, ['x']) ∧
    make_path_to_parent ("/ac/y/").data = some (("/ac/").data, ['y']) ∧
    is_successor ("/ab/").data ("/ac/").data = false ∧
    is_successor ("/ac/").data ("/ab/").data = false ∧
    find_last_common_predecessor ("/ab/").data ("/ac/").data = ("/a").data ∧
    is_path_valid ("/a").data = false ∧
    ("/a").data.getLast? ≠ some '/' := by
  decide

/-- C3: refuted on the code.  With the fresh tree, `source = "/a/"` does
not exist, `target = "/a/b/"` is a strict descendant of it, and the claim
(with the spec) demands `ENOENT`; `tree_move` returns `ESUCCESSOR`
because the `is_successor` early return precedes every existence check.
The tree is unchanged. -/
theorem c3_successor_check_precedes_existence :
    ¬ pathExists tree_new [['a']] ∧
    is_successor ("/a/").data ("/a/b/").data = true ∧
    tree_move tree_new ("/a/").data ("/a/b/").data = (ESUCCESSOR, tree_new) ∧
    ESUCCESSOR ≠ ENOENT := by
  decide

/-- C4: every non-success return of `tree_create`, `tree_remove` or
`tree_move` leaves the tree state (hence the set of paths to existing
nodes and every child map) exactly as it was, for every state and every
input string. -/
theorem c4_errors_leave_tree_unchanged :
    ∀ (s : TreeState) (p q : List Char),
      (∀ r s', tree_create s p = (r, s') → r ≠ SUCCESS → s' = s) ∧
      (∀ r s', tree_remove s p = (r, s') → r ≠ SUCCESS → s' = s) ∧
      (∀ r s', tree_move s p q = (r, s') → r ≠ SUCCESS → s' = s) := by
  intro s p q
  refine ⟨?_, ?_, ?_⟩ <;>
    · intro r s' h hr
      first
        | unfold tree_create at h
        | unfold tree_remove at h
        | unfold tree_move at h
      repeat' split at h
      all_goals
        first
          | (injection h with h1 h2; exact h2.symm)
          | (injection h with h1 h2; exact absurd h1.symm hr)

/-- C4 witness: a concrete failing `create` (missing parent) returns
`ENOENT` and leaves the fresh tree untouched. -/
theorem c4_witness :
    tree_create tree_new ("/a/b/").data = (ENOENT, tree_new) ∧ ENOENT ≠ SUCCESS := by
  have h := (c4_errors_leave_tree_unchanged tree_new ("/a/b/").data []).1
  have hc : tree_create tree_new ("/a/b/").data =
      (ENOENT, (tree_create tree_new ("/a/b/").data).2) := by decide
  have h2 := h ENOENT (tree_create tree_new ("/a/b/").data).2 hc (by decide)
  exact ⟨by rw [hc, h2], by decide⟩

/-- C10: refuted on the code.  In `c10_state` every component of
`parent("/ab/s/")` exists, `s` is absent from the child map of `/ab/`,
the general-case preconditions of `move("/ab/s/", "/ac/t/")` hold, and a
child named `t` exists in target's parent `/ac/` — yet `tree_move`
returns `EEXIST`, not `ENOENT`: the truncated common prefix `"/a"` makes
the write-locked descent land on `/b/` and `/c/` instead of `/ab/` and
`/ac/`. -/
theorem c10_source_miss_does_not_precede_target_check :
    pathExists c10_state [['a', 'b']] ∧
    ((resolveC c10_state 0 [['a', 'b']]).bind
      (fun id => child c10_state id ['s'])) = none ∧
    ((resolveC c10_state 0 [['a', 'c']]).bind
      (fun id => child c10_state id ['t'])).isSome = true ∧
    is_successor ("/ab/s/").data ("/ac/t/").data = false ∧
    is_successor ("/ac/t/").data ("/ab/s/").data = false ∧
    ("/ab/s/").data ≠ ("/ac/t/").data ∧
    (tree_move c10_state ("/ab/s/").data ("/ac/t/").data).1 = EEXIST ∧
    EEXIST ≠ ENOENT := by
  decide

/-- C7: refuted as stated.  `"/"` is a strict prefix of the valid path
`"/a/"`, the source `"/a/"` does not exist in the fresh tree, yet
`tree_move` returns `EEXIST`, not `ENOENT`: the target-is-root early
return fires before any existence check. -/
theorem c7_counterexample_root_target :
    is_path_valid ("/a/").data = true ∧ is_path_valid ("/").data = true ∧
    is_successor ("/").data ("/a/").data = true ∧
    ¬ pathExists tree_new [['a']] ∧
    tree_move tree_new ("/a/").data ("/").data = (EEXIST, tree_new) ∧
    EEXIST ≠ ENOENT := by
  decide

/-- C7 (amended): for every pair of valid paths where the target is a
strict prefix of the source and the target is not the root path,
`tree_move` returns `EEXIST` when the source exists and `ENOENT` when it
does not, and in both cases leaves the tree unchanged. -/
theorem c7_move_to_ancestor (s : TreeState) (scs : List Name) (T : List Char)
    (hv : ∀ n ∈ scs, valid_name n = true)
    (hlen : (pathOf scs).length ≤ MAX_PATH_LENGTH)
    (hT : is_path_valid T = true)
    (hTroot : T ≠ ['/'])
    (hsucc : is_successor T (pathOf scs) = true) :
    tree_move s (pathOf scs) T =
      ((if pathExists s scs then EEXIST else ENOENT), s) := by
  have hS : is_path_valid (pathOf scs) = true := valid_intro hv hlen
  have hslash : ∀ n ∈ scs, '/' ∉ n := fun n hn => (valid_name_facts (hv n hn)).2.1
  simp only [is_successor, Bool.and_eq_true, decide_eq_true_eq] at hsucc
  obtain ⟨hlt, htake⟩ := hsucc
  have hTlen : 0 < T.length := List.length_pos.mpr (valid_ne_nil hT)
  have h1 : ¬ (¬ is_path_valid (pathOf scs) = true ∨ ¬ is_path_valid T = true) := by
    simp [hS, hT]
  have h2 : ¬ (is_root (pathOf scs) = true) := by
    simp only [is_root, decide_eq_true_eq]
    intro h
    rw [h] at hlt
    simp only [List.length_cons, List.length_nil] at hlt
    omega
  have h3 : ¬ (is_root T = true) := by
    simp only [is_root, decide_eq_true_eq]
    exact hTroot
  have h4 : ¬ (is_successor (pathOf scs) T = true) := by
    simp only [is_successor, Bool.and_eq_true, decide_eq_true_eq]
    rintro ⟨h, _⟩
    omega
  have h5 : ¬ (pathOf scs = T) := by
    intro h
    rw [h] at hlt
    omega
  have h6 : is_successor T (pathOf scs) = true := by
    simp only [is_successor, Bool.and_eq_true, decide_eq_true_eq]
    exact ⟨hlt, htake⟩
  unfold tree_move
  rw [if_neg h1, if_neg h2, if_neg h3, if_neg h4, if_neg h5, if_pos h6,
    lock_path_pathOf hslash]
  cases hres : resolveC s 0 scs with
  | none =>
    rw [if_neg (fun hex => by
      obtain ⟨id, hid⟩ := hex
      rw [hres] at hid
      exact Option.noConfusion hid)]
  | some id =>
    rw [if_pos ⟨id, hres⟩]

/-- C7 witness: `move("/a/b/", "/a/")` on the fresh tree (where the
source does not exist) returns `ENOENT` with the tree unchanged. -/
theorem c7_witness :
    tree_move tree_new (pathOf [['a'], ['b']]) (pathOf [['a']]) = (ENOENT, tree_new) := by
  have h := c7_move_to_ancestor tree_new [['a'], ['b']] (pathOf [['a']])
    (by decide) (by decide) (by decide) (by decide) (by decide)
  rw [if_neg (by decide : ¬ pathExists tree_new [['a'], ['b']])] at h
  exact h

/-! ## Association-map and heap lemmas -/

theorem hmap_get_mem {k : Name} {v : Nat} : ∀ {m : List (Name × Nat)},
    hmap_get k m = some v → (k, v) ∈ m := by
  intro m
  induction m with
  | nil => intro h; simp [hmap_get] at h
  | cons e t ih =>
    intro h
    obtain ⟨k', v'⟩ := e
    simp only [hmap_get] at h
    by_cases hk : k' = k
    · subst hk
      rw [if_pos rfl] at h
      injection h with h
      subst h
      exact List.mem_cons_self _ _
    · rw [if_neg hk] at h
      exact List.mem_cons_of_mem _ (ih h)

theorem mem_hmap_get {k : Name} {v : Nat} : ∀ {m : List (Name × Nat)},
    (m.map (·.1)).Nodup → (k, v) ∈ m → hmap_get k m = some v := by
  intro m
  induction m with
  | nil => intro _ h; simp at h
  | cons e t ih =>
    intro hnd h
    obtain ⟨k', v'⟩ := e
    simp only [List.map_cons, List.nodup_cons] at hnd
    obtain ⟨hk', hnd⟩ := hnd
    rcases List.mem_cons.mp h with h1 | h1
    · obtain ⟨rfl, rfl⟩ := Prod.mk.injEq .. ▸ h1
      simp [hmap_get]
    · have hne : k' ≠ k := by
        intro he
        subst he
        exact hk' (List.mem_map.mpr ⟨(k', v), h1, rfl⟩)
      simp only [hmap_get, if_neg hne]
      exact ih hnd h1

theorem hmap_get_eq_none {k : Name} : ∀ {m : List (Name × Nat)},
    hmap_get k m = none ↔ ∀ v, (k, v) ∉ m := by
  intro m
  induction m with
  | nil => simp [hmap_get]
  | cons e t ih =>
    obtain ⟨k', v'⟩ := e
    simp only [hmap_get]
    by_cases hk : k' = k
    · subst hk
      simp only [if_pos rfl]
      constructor
      · intro h; exact absurd h (by simp)
      · intro h; exact absurd (List.mem_cons_self _ _) (h v')
    · rw [if_neg hk]
      rw [ih]
      constructor
      · intro h v hv
        rcases List.mem_cons.mp hv with h1 | h1
        · exact hk (congrArg Prod.fst h1).symm
        · exact h v h1
      · intro h v hv
        exact h v (List.mem_cons_of_mem _ hv)

theorem hmap_remove_sublist (k : Name) : ∀ (m : List (Name × Nat)),
    (hmap_remove k m).Sublist m := by
  intro m
  induction m with
  | nil => simp [hmap_remove]
  | cons e t ih =>
    obtain ⟨k', v'⟩ := e
    simp only [hmap_remove]
    by_cases hk : k' = k
    · rw [if_pos hk]
      exact (List.sublist_cons_self _ _)
    · rw [if_neg hk]
      exact ih.cons₂ _

theorem mem_hmap_remove_of_ne {k : Name} {e : Name × Nat} (hne : e.1 ≠ k) :
    ∀ {m : List (Name × Nat)}, e ∈ m → e ∈ hmap_remove k m := by
  intro m
  induction m with
  | nil => intro h; simp at h
  | cons e' t ih =>
    intro h
    obtain ⟨k', v'⟩ := e'
    simp only [hmap_remove]
    rcases List.mem_cons.mp h with h1 | h1
    · have : k' ≠ k := by
        subst h1
        exact hne
      rw [if_neg this, h1]
      exact List.mem_cons_self _ _
    · by_cases hk : k' = k
      · rw [if_pos hk]; exact h1
      · rw [if_neg hk]; exact List.mem_cons_of_mem _ (ih h1)

theorem hmap_get_remove_ne {k k' : Name} (h : k' ≠ k) :
    ∀ (m : List (Name × Nat)), hmap_get k' (hmap_remove k m) = hmap_get k' m := by
  intro m
  induction m with
  | nil => rfl
  | cons e t ih =>
    obtain ⟨k1, v1⟩ := e
    simp only [hmap_remove, hmap_get]
    by_cases hk : k1 = k
    · rw [if_pos hk]
      have : k1 ≠ k' := by rw [hk]; exact fun he => h he.symm
      rw [if_neg this]
    · rw [if_neg hk]
      by_cases hk' : k1 = k'
      · simp [hmap_get, if_pos hk']
      · simp only [hmap_get, if_neg hk']
        exact ih

theorem hmap_get_remove_self {k : Name} : ∀ {m : List (Name × Nat)},
    (m.map (·.1)).Nodup → hmap_get k (hmap_remove k m) = none := by
  intro m
  induction m with
  | nil => intro _; rfl
  | cons e t ih =>
    intro hnd
    obtain ⟨k1, v1⟩ := e
    simp only [List.map_cons, List.nodup_cons] at hnd
    obtain ⟨hk1, hnd⟩ := hnd
    simp only [hmap_remove]
    by_cases hk : k1 = k
    · rw [if_pos hk]
      subst hk
      rw [hmap_get_eq_none]
      intro v hv
      exact hk1 (List.mem_map.mpr ⟨(k1, v), hv, rfl⟩)
    · rw [if_neg hk]
      simp only [hmap_get, if_neg hk]
      exact ih hnd

theorem storeGet_set (id j : Nat) (f : Node → Node) :
    ∀ (l : List (Nat × Node)),
      storeGet j (l.map (fun e => if e.1 = id then (e.1, f e.2) else e)) =
        if j = id then (storeGet j l).map f else storeGet j l := by
  intro l
  induction l with
  | nil => by_cases hj : j = id <;> simp [storeGet, hj]
  | cons e t ih =>
    obtain ⟨k, nd⟩ := e
    simp only [List.map_cons]
    try dsimp only
    by_cases hk : k = id
    · rw [if_pos hk]
      by_cases hj : k = j
      · subst hj
        subst hk
        simp [storeGet]
      · simp only [storeGet, if_neg hj]
        rw [ih]
    · rw [if_neg hk]
      by_cases hj : k = j
      · subst hj
        simp only [storeGet, if_pos rfl]
        rw [if_neg hk]
        simp [storeGet]
      · simp only [storeGet, if_neg hj]
        exact ih

theorem getNode_set (s : TreeState) (id : Nat) (f : Node → Node) (j : Nat) :
    getNode (setNode s id f) j =
      if j = id then (getNode s j).map f else getNode s j := by
  simp only [getNode, setNode, storeGet_set]

theorem storeGet_del (id j : Nat) :
    ∀ (l : List (Nat × Node)),
      storeGet j (l.filter (fun e => decide (e.1 ≠ id))) =
        if j = id then none else storeGet j l := by
  intro l
  induction l with
  | nil => by_cases hj : j = id <;> simp [storeGet, hj]
  | cons e t ih =>
    obtain ⟨k, nd⟩ := e
    simp only [List.filter_cons]
    try dsimp only
    by_cases hk : k = id
    · have hd : decide (k ≠ id) = false := by simp [hk]
      rw [hd, if_neg Bool.false_ne_true, ih]
      by_cases hj : j = id
      · rw [if_pos hj, if_pos hj]
      · rw [if_neg hj, if_neg hj]
        have hkj : ¬ (k = j) := fun h => hj (h ▸ hk)
        simp only [storeGet, if_neg hkj]
    · have hd : decide (k ≠ id) = true := by simp [hk]
      rw [hd, if_pos rfl]
      by_cases hj : k = j
      · subst hj
        simp only [storeGet, if_pos rfl]
        rw [if_neg hk]
        simp [storeGet]
      · simp only [storeGet, if_neg hj]
        exact ih

theorem getNode_del (s : TreeState) (id j : Nat) :
    getNode (delNode s id) j = if j = id then none else getNode s j := by
  simp only [getNode, delNode, storeGet_del]

/-! ## Consequences of well-formedness -/

theorem edge_of_child {s : TreeState} {id : Nat} {n : Name} {c : Nat}
    (h : child s id n = some c) : Edge s id n c := by
  unfold child at h
  cases hg : getNode s id with
  | none => rw [hg] at h; exact Option.noConfusion h
  | some nd =>
    rw [hg] at h
    exact ⟨nd, hg, hmap_get_mem h⟩

theorem child_eq_some_of_edge {s : TreeState} (w : WF s) {p : Nat} {n : Name} {c : Nat}
    (h : Edge s p n c) : child s p n = some c := by
  obtain ⟨nd, hg, hm⟩ := h
  unfold child
  rw [hg]
  exact mem_hmap_get (w.maps_nodup p nd hg) hm

theorem child_some_getNode {s : TreeState} {id : Nat} {n : Name} {c : Nat}
    (h : child s id n = some c) : ∃ nd, getNode s id = some nd := by
  unfold child at h
  cases hg : getNode s id with
  | none => rw [hg] at h; exact Option.noConfusion h
  | some nd => exact ⟨nd, rfl⟩

/-- Along a descent in a well-formed state every visited node is
allocated. -/
theorem resolveC_some_dom {s : TreeState} (w : WF s) :
    ∀ (cs : List Name) (id j : Nat), (∃ nd, getNode s id = some nd) →
      resolveC s id cs = some j → ∃ nd, getNode s j = some nd := by
  intro cs
  induction cs with
  | nil =>
    intro id j hid h
    simp only [resolveC, Option.some.injEq] at h
    exact h ▸ hid
  | cons n t ih =>
    intro id j hid h
    simp only [resolveC] at h
    cases hc : child s id n with
    | none => rw [hc] at h; exact Option.noConfusion h
    | some c =>
      rw [hc] at h
      obtain ⟨nd, hg, hm⟩ := edge_of_child hc
      obtain ⟨_, cnd, hcnd, _⟩ := w.edge_down id nd hg (n, c) hm
      exact ih c j ⟨cnd, hcnd⟩ h

/-- The root is nobody's child: no nonempty descent ends at node `0`. -/
theorem no_descent_to_root {s : TreeState} (w : WF s) :
    ∀ (cs : List Name) (a : Nat), cs ≠ [] → resolveC s a cs ≠ some 0 := by
  intro cs
  induction cs with
  | nil => intro a h; exact absurd rfl h
  | cons n t ih =>
    intro a _ h
    simp only [resolveC] at h
    cases hc : child s a n with
    | none => rw [hc] at h; exact Option.noConfusion h
    | some c =>
      rw [hc] at h
      cases t with
      | nil =>
        simp only [resolveC, Option.some.injEq] at h
        subst h
        obtain ⟨nd, hg, hm⟩ := edge_of_child hc
        exact (w.edge_down a nd hg (n, 0) hm).1 rfl
      | cons m t' => exact ih c (by simp) h

/-- Decomposing a nonempty descent at its last step. -/
theorem resolveC_last {s : TreeState} :
    ∀ (cs : List Name) (a z : Nat), cs ≠ [] → resolveC s a cs = some z →
      ∃ cs' m b, cs = cs' ++ [m] ∧ resolveC s a cs' = some b ∧
        child s b m = some z := by
  intro cs
  induction cs with
  | nil => intro a z h; exact absurd rfl h
  | cons n t ih =>
    intro a z _ h
    simp only [resolveC] at h
    cases hc : child s a n with
    | none => rw [hc] at h; exact Option.noConfusion h
    | some c =>
      rw [hc] at h
      cases t with
      | nil =>
        simp only [resolveC, Option.some.injEq] at h
        exact ⟨[], n, a, rfl, rfl, h ▸ hc⟩
      | cons m t' =>
        obtain ⟨cs', m', b, he, hr, hcb⟩ := ih c z (by simp) h
        refine ⟨n :: cs', m', b, by rw [he, List.cons_append], ?_, hcb⟩
        simp only [resolveC]
        rw [hc]
        show resolveC s c cs' = some b
        exact hr

theorem grounded_no_cycle {s : TreeState} (w : WF s) :
    ∀ {id : Nat}, Grounded s id →
      ∀ cs, resolveC s id cs = some id → cs = [] := by
  intro id hg
  induction hg with
  | root =>
    intro cs h
    by_contra hne
    exact no_descent_to_root w cs 0 hne h
  | step id nd p hnd hp _ ih =>
    intro cs h
    by_contra hne
    obtain ⟨cs', m, b, he, hr, hcb⟩ := resolveC_last cs id id hne h
    obtain ⟨bnd, hbg, hbm⟩ := edge_of_child hcb
    obtain ⟨_, cnd, hcnd, hcp⟩ := w.edge_down b bnd hbg (m, id) hbm
    rw [hnd] at hcnd
    injection hcnd with hcnd
    subst hcnd
    rw [hp] at hcp
    injection hcp with hcp
    subst hcp
    have hcyc : resolveC s p (m :: cs') = some p := by
      simp only [resolveC]
      rw [hcb]
      show resolveC s id cs' = some p
      exact hr
    exact List.noConfusion (ih (m :: cs') hcyc)

/-- No nonempty descent in a well-formed state returns to its start. -/
theorem wf_no_cycle {s : TreeState} (w : WF s) :
    ∀ (id : Nat) (cs : List Name), resolveC s id cs = some id → cs = [] := by
  intro id cs h
  cases cs with
  | nil => rfl
  | cons n t =>
    have hc : ∃ c, child s id n = some c := by
      simp only [resolveC] at h
      cases hc : child s id n with
      | none => rw [hc] at h; exact Option.noConfusion h
      | some c => exact ⟨c, rfl⟩
    obtain ⟨c, hc⟩ := hc
    obtain ⟨nd, hg⟩ := child_some_getNode hc
    exact grounded_no_cycle w (w.grounded id nd hg) _ h

/-- In a well-formed state the name path from the root to a node is
unique. -/
theorem resolveC_inj {s : TreeState} (w : WF s) :
    ∀ (cs1 : List Name) (cs2 : List Name) (x : Nat),
      resolveC s 0 cs1 = some x → resolveC s 0 cs2 = some x → cs1 = cs2 := by
  intro cs1
  induction cs1 using List.reverseRecOn with
  | nil =>
    intro cs2 x h1 h2
    simp only [resolveC, Option.some.injEq] at h1
    subst h1
    rcases List.eq_nil_or_concat cs2 with rfl | ⟨a2, m2, rfl⟩
    · rfl
    · exact absurd h2 (no_descent_to_root w _ 0 (by simp))
  | append_singleton a1 m1 ih =>
    intro cs2 x h1 h2
    rw [resolveC_append] at h1
    cases hb1 : resolveC s 0 a1 with
    | none => rw [hb1] at h1; exact Option.noConfusion h1
    | some b1 =>
      rw [hb1] at h1
      simp only [resolveC] at h1
      cases hc1 : child s b1 m1 with
      | none => rw [hc1] at h1; exact Option.noConfusion h1
      | some c1 =>
        rw [hc1] at h1
        simp only [Option.some.injEq] at h1
        subst h1
        have hx0 : c1 ≠ 0 := by
          intro h0
          subst h0
          exact no_descent_to_root w [m1] b1 (by simp)
            (by simp only [resolveC]; rw [hc1])
        rcases List.eq_nil_or_concat cs2 with rfl | ⟨a2, m2, rfl⟩
        · simp only [resolveC, Option.some.injEq] at h2
          exact absurd h2.symm hx0
        · rw [List.concat_eq_append] at h2 ⊢
          rw [resolveC_append] at h2
          cases hb2 : resolveC s 0 a2 with
          | none => rw [hb2] at h2; exact Option.noConfusion h2
          | some b2 =>
            rw [hb2] at h2
            simp only [resolveC] at h2
            cases hc2 : child s b2 m2 with
            | none => rw [hc2] at h2; exact Option.noConfusion h2
            | some c2 =>
              rw [hc2] at h2
              simp only [Option.some.injEq] at h2
              subst h2
              obtain ⟨nd1, hg1, hm1⟩ := edge_of_child hc1
              obtain ⟨nd2, hg2, hm2⟩ := edge_of_child hc2
              obtain ⟨_, cnd1, hcnd1, hcp1⟩ := w.edge_down b1 nd1 hg1 (m1, c2) hm1
              obtain ⟨_, cnd2, hcnd2, hcp2⟩ := w.edge_down b2 nd2 hg2 (m2, c2) hm2
              rw [hcnd1] at hcnd2
              injection hcnd2 with hcnd2
              subst hcnd2
              rw [hcp1] at hcp2
              injection hcp2 with hb12
              subst hb12
              rw [hg1] at hg2
              injection hg2 with hg2
              subst hg2
              have hmm : m1 = m2 := by
                have hinj := List.inj_on_of_nodup_map (w.values_nodup b1 nd1 hg1)
                have := hinj hm1 hm2 rfl
                exact (Prod.mk.injEq .. ▸ this).1
              subst hmm
              rw [ih a2 b1 hb1 hb2]

/-- Every allocated node is named by some path from the root. -/
theorem grounded_reach {s : TreeState} (w : WF s) :
    ∀ {id : Nat}, Grounded s id → ∃ cs, resolveC s 0 cs = some id := by
  intro id hg
  induction hg with
  | root => exact ⟨[], rfl⟩
  | step id nd p hnd hp _ ih =>
    obtain ⟨cs, hcs⟩ := ih
    by_cases h0 : id = 0
    · exact ⟨[], by rw [h0]; rfl⟩
    · obtain ⟨p', pnd, hp', hpg, n, hn⟩ := w.edge_up id nd hnd h0
      rw [hp] at hp'
      injection hp' with hp'
      subst hp'
      have hc : child s p n = some id := by
        unfold child
        rw [hpg]
        exact mem_hmap_get (w.maps_nodup p pnd hpg) hn
      refine ⟨cs ++ [n], ?_⟩
      rw [resolveC_append, hcs]
      simp only [resolveC]
      rw [hc]

/-! ## Preservation of well-formedness -/

theorem not_mem_keys_of_hmap_get_none {k : Name} {m : List (Name × Nat)}
    (h : hmap_get k m = none) : k ∉ m.map (fun e => e.1) := by
  intro hk
  obtain ⟨e, he, hek⟩ := List.mem_map.mp hk
  have : (k, e.2) ∈ m := by
    have : e = (k, e.2) := by
      obtain ⟨e1, e2⟩ := e
      simp only at hek
      rw [hek]
    rw [← this]
    exact he
  exact (hmap_get_eq_none.mp h e.2) this

theorem storeGet_of_mem_keys {k : Nat} : ∀ {l : List (Nat × Node)},
    k ∈ l.map (fun e => e.1) → ∃ nd, storeGet k l = some nd := by
  intro l
  induction l with
  | nil => intro h; simp at h
  | cons e t ih =>
    intro h
    obtain ⟨k', nd'⟩ := e
    by_cases hk : k' = k
    · exact ⟨nd', by simp [storeGet, hk]⟩
    · simp only [List.map_cons, List.mem_cons] at h
      rcases h with h | h
      · exact absurd h.symm hk
      · obtain ⟨nd, hnd⟩ := ih h
        exact ⟨nd, by simp only [storeGet, if_neg hk]; exact hnd⟩

theorem map_fst_set (id : Nat) (f : Node → Node) (l : List (Nat × Node)) :
    (l.map (fun e => if e.1 = id then (e.1, f e.2) else e)).map (fun e => e.1) =
      l.map (fun e => e.1) := by
  rw [List.map_map]
  congr 1
  funext e
  by_cases h : e.1 = id <;> simp [Function.comp, h]

theorem getNode_tree_new (id : Nat) :
    getNode tree_new id =
      if 0 = id then some { map := [], parent := none } else none := rfl

theorem tree_new_cases {id : Nat} {nd : Node} (h : getNode tree_new id = some nd) :
    id = 0 ∧ nd = { map := [], parent := none } := by
  rw [getNode_tree_new] at h
  by_cases h0 : 0 = id
  · rw [if_pos h0] at h
    injection h with h
    exact ⟨h0.symm, h.symm⟩
  · rw [if_neg h0] at h
    exact Option.noConfusion h

/-- The fresh tree is well formed. -/
theorem wf_init : WF tree_new := by
  refine ⟨?_, ?_, ?_, ?_, ?_, ?_, ?_, ?_, ?_⟩
  · simp [tree_new]
  · exact ⟨{ map := [], parent := none }, rfl, rfl⟩
  · intro id nd h
    obtain ⟨_, rfl⟩ := tree_new_cases h
    simp
  · intro id nd h
    obtain ⟨_, rfl⟩ := tree_new_cases h
    simp
  · intro id nd h
    obtain ⟨_, rfl⟩ := tree_new_cases h
    simp
  · intro id nd h
    obtain ⟨_, rfl⟩ := tree_new_cases h
    simp
  · intro id nd h h0
    obtain ⟨rfl, _⟩ := tree_new_cases h
    exact absurd rfl h0
  · intro id nd h
    obtain ⟨rfl, _⟩ := tree_new_cases h
    exact Grounded.root
  · intro id nd h
    obtain ⟨rfl, _⟩ := tree_new_cases h
    simp [tree_new]

/-- A successful `tree_create` — a fresh empty node hung under an
allocated parent beneath a name the parent's map lacks — preserves
well-formedness. -/
theorem wf_create_aux {s : TreeState} (w : WF s) {parent : Nat} {pnd : Node}
    (hpar : getNode s parent = some pnd) {component : Name}
    (hname : valid_name component = true)
    (habs : hmap_get component pnd.map = none)
    {s' : TreeState}
    (hs' : s' = { nodes := (s.next, { map := [], parent := some parent }) ::
                    (setNode s parent
                      (fun nd => { nd with
                        map := hmap_insert component s.next nd.map })).nodes,
                  next := s.next + 1 }) :
    WF s' := by
  have hpar_lt : parent < s.next := w.fresh parent pnd hpar
  have hroot_lt : 0 < s.next := by
    obtain ⟨rnd, hr, _⟩ := w.root_present
    exact w.fresh 0 rnd hr
  have hget : ∀ j, getNode s' j =
      if j = s.next then some { map := [], parent := some parent }
      else if j = parent then
        some { map := (component, s.next) :: pnd.map, parent := pnd.parent }
      else getNode s j := by
    intro j
    rw [hs']
    show storeGet j ((s.next, _) :: _) = _
    simp only [storeGet]
    by_cases hj : s.next = j
    · rw [if_pos hj, if_pos hj.symm]
    · rw [if_neg hj, if_neg (fun h => hj h.symm)]
      have h2 := storeGet_set parent j
        (fun nd => { nd with map := hmap_insert component s.next nd.map }) s.nodes
      rw [show storeGet j (setNode s parent
          (fun nd => { nd with map := hmap_insert component s.next nd.map })).nodes =
        storeGet j (s.nodes.map (fun e => if e.1 = parent then
          (e.1, { e.2 with map := hmap_insert component s.next e.2.map }) else e)) from rfl]
      rw [h2]
      by_cases hjp : j = parent
      · rw [if_pos hjp, if_pos hjp, hjp]
        show (getNode s parent).map _ = _
        rw [hpar]
        rfl
      · rw [if_neg hjp, if_neg hjp]
        rfl
  have haux : ∀ j jnd, getNode s j = some jnd →
      ∃ jnd', getNode s' j = some jnd' ∧ jnd'.parent = jnd.parent ∧
        ∀ e ∈ jnd.map, e ∈ jnd'.map := by
    intro j jnd hj
    have hjN : j ≠ s.next := by
      have := w.fresh j jnd hj
      omega
    rw [hget j, if_neg hjN]
    by_cases hjp : j = parent
    · subst hjp
      rw [hpar] at hj
      injection hj with hj
      subst hj
      rw [if_pos rfl]
      exact ⟨_, rfl, rfl, fun e he => List.mem_cons_of_mem _ he⟩
    · rw [if_neg hjp]
      exact ⟨jnd, hj, rfl, fun e he => he⟩
  have htrans : ∀ j, Grounded s j → Grounded s' j := by
    intro j hg
    induction hg with
    | root => exact Grounded.root
    | step j nd p hnd hp _ ih =>
      obtain ⟨jnd', hj', hp', _⟩ := haux j nd hnd
      exact Grounded.step j jnd' p hj' (by rw [hp', hp]) ih
  have hnext : s'.next = s.next + 1 := by rw [hs']
  refine ⟨?_, ?_, ?_, ?_, ?_, ?_, ?_, ?_, ?_⟩
  · have hkeys : s'.nodes.map (fun e => e.1) = s.next :: s.nodes.map (fun e => e.1) := by
      rw [hs']
      simp only [List.map_cons]
      rw [show (setNode s parent
          (fun nd => { nd with map := hmap_insert component s.next nd.map })).nodes =
        s.nodes.map (fun e => if e.1 = parent then
          (e.1, { e.2 with map := hmap_insert component s.next e.2.map }) else e) from rfl]
      rw [map_fst_set parent
        (fun nd => { nd with map := hmap_insert component s.next nd.map }) s.nodes]
    rw [hkeys]
    refine List.nodup_cons.mpr ⟨?_, w.nodupIds⟩
    intro hmem
    obtain ⟨nd, hnd⟩ := storeGet_of_mem_keys hmem
    exact absurd (w.fresh s.next nd hnd) (by omega)
  · obtain ⟨rnd, hr, hrp⟩ := w.root_present
    rw [hget 0, if_neg (by omega)]
    by_cases h0p : (0 : Nat) = parent
    · rw [if_pos h0p]
      refine ⟨_, rfl, ?_⟩
      have hpr : pnd = rnd := by
        rw [← h0p] at hpar
        rw [hpar] at hr
        injection hr with hr
      show pnd.parent = none
      rw [hpr, hrp]
    · rw [if_neg h0p]
      exact ⟨rnd, hr, hrp⟩
  · intro id nd h
    rw [hget id] at h
    by_cases hidN : id = s.next
    · rw [if_pos hidN] at h
      injection h with h
      rw [← h]
      simp
    · rw [if_neg hidN] at h
      by_cases hidp : id = parent
      · rw [if_pos hidp] at h
        injection h with h
        rw [← h]
        simp only [List.map_cons]
        exact List.nodup_cons.mpr
          ⟨not_mem_keys_of_hmap_get_none habs, w.maps_nodup parent pnd hpar⟩
      · rw [if_neg hidp] at h
        exact w.maps_nodup id nd h
  · intro id nd h e he
    rw [hget id] at h
    by_cases hidN : id = s.next
    · rw [if_pos hidN] at h
      injection h with h
      rw [← h] at he
      simp at he
    · rw [if_neg hidN] at h
      by_cases hidp : id = parent
      · rw [if_pos hidp] at h
        injection h with h
        rw [← h] at he
        rcases List.mem_cons.mp he with he1 | he1
        · subst he1
          exact hname
        · exact (w.names_valid parent pnd hpar e he1)
      · rw [if_neg hidp] at h
        exact w.names_valid id nd h e he
  · intro id nd h e he
    rw [hget id] at h
    by_cases hidN : id = s.next
    · rw [if_pos hidN] at h
      injection h with h
      rw [← h] at he
      simp at he
    · rw [if_neg hidN] at h
      by_cases hidp : id = parent
      · rw [if_pos hidp] at h
        injection h with h
        rw [← h] at he
        rcases List.mem_cons.mp he with he1 | he1
        · subst he1
          refine ⟨by simp; omega, ?_⟩
          refine ⟨{ map := [], parent := some parent }, ?_, ?_⟩
          · show getNode s' (component, s.next).2 = _
            simp only []
            rw [hget s.next, if_pos rfl]
          · rw [hidp]
        · obtain ⟨hne0, cnd, hcnd, hcp⟩ := w.edge_down parent pnd hpar e he1
          obtain ⟨cnd', hgc', hpf, _⟩ := haux e.2 cnd hcnd
          exact ⟨hne0, cnd', hgc', by rw [hpf, hcp, hidp]⟩
      · rw [if_neg hidp] at h
        obtain ⟨hne0, cnd, hcnd, hcp⟩ := w.edge_down id nd h e he
        obtain ⟨cnd', hgc', hpf, _⟩ := haux e.2 cnd hcnd
        exact ⟨hne0, cnd', hgc', by rw [hpf, hcp]⟩
  · intro id nd h
    rw [hget id] at h
    by_cases hidN : id = s.next
    · rw [if_pos hidN] at h
      injection h with h
      rw [← h]
      simp
    · rw [if_neg hidN] at h
      by_cases hidp : id = parent
      · rw [if_pos hidp] at h
        injection h with h
        rw [← h]
        simp only [List.map_cons]
        refine List.nodup_cons.mpr ⟨?_, w.values_nodup parent pnd hpar⟩
        intro hmem
        obtain ⟨e, he, hev⟩ := List.mem_map.mp hmem
        obtain ⟨_, cnd, hcnd, _⟩ := w.edge_down parent pnd hpar e he
        have := w.fresh e.2 cnd hcnd
        omega
      · rw [if_neg hidp] at h
        exact w.values_nodup id nd h
  · intro id nd h h0
    rw [hget id] at h
    by_cases hidN : id = s.next
    · subst hidN
      rw [if_pos rfl] at h
      injection h with h
      refine ⟨parent, { map := (component, s.next) :: pnd.map, parent := pnd.parent },
        by rw [← h], ?_, component, List.mem_cons_self _ _⟩
      rw [hget parent, if_neg (by omega), if_pos rfl]
    · rw [if_neg hidN] at h
      by_cases hidp : id = parent
      · rw [if_pos hidp] at h
        injection h with h
        have h0p : parent ≠ 0 := hidp ▸ h0
        obtain ⟨p, pnd2, hpp, hpg, n, hn⟩ := w.edge_up parent pnd hpar h0p
        obtain ⟨pnd2', hg', hpf, hsub⟩ := haux p pnd2 hpg
        refine ⟨p, pnd2', ?_, hg', n, ?_⟩
        · rw [← h]
          exact hpp
        · rw [hidp]
          exact hsub _ hn
      · rw [if_neg hidp] at h
        obtain ⟨p, pnd2, hpp, hpg, n, hn⟩ := w.edge_up id nd h h0
        obtain ⟨pnd2', hg', hpf, hsub⟩ := haux p pnd2 hpg
        exact ⟨p, pnd2', hpp, hg', n, hsub _ hn⟩
  · intro id nd h
    rw [hget id] at h
    by_cases hidN : id = s.next
    · subst hidN
      refine Grounded.step _ { map := [], parent := some parent } parent
        (by rw [hget s.next, if_pos rfl]) rfl
        (htrans parent (w.grounded parent pnd hpar))
    · rw [if_neg hidN] at h
      by_cases hidp : id = parent
      · subst hidp
        exact htrans _ (w.grounded _ pnd hpar)
      · rw [if_neg hidp] at h
        exact htrans _ (w.grounded _ nd h)
  · intro id nd h
    rw [hnext]
    rw [hget id] at h
    by_cases hidN : id = s.next
    · omega
    · rw [if_neg hidN] at h
      by_cases hidp : id = parent
      · omega
      · rw [if_neg hidp] at h
        have := w.fresh id nd h
        omega

theorem flatOf_eq_nil {cs : List Name} (h : flatOf cs = []) : cs = [] := by
  cases cs with
  | nil => rfl
  | cons n t =>
    rw [flatOf_cons] at h
    simp at h

theorem pathOf_root {cs : List Name} (h : pathOf cs = ['/']) : cs = [] := by
  apply flatOf_eq_nil
  have : '/' :: flatOf cs = '/' :: ([] : List Char) := h
  injection this

/-- `tree_create` preserves well-formedness. -/
theorem wf_tree_create {s : TreeState} (w : WF s) (p : List Char) :
    WF (tree_create s p).2 := by
  unfold tree_create
  split
  · exact w
  rename_i hval
  split
  · exact w
  rename_i hroot
  split
  · exact w
  rename_i pp comp heqm
  split
  · exact w
  rename_i parent heql
  split
  · exact w
  rename_i heqc
  obtain ⟨cs, hcs, hnames, hlen⟩ := valid_elim (not_not.mp hval)
  have hrootne : p ≠ ['/'] := by
    intro he
    exact hroot (by rw [is_root, he]; rfl)
  have hcsne : cs ≠ [] := by
    intro he
    rw [he] at hcs
    exact hrootne hcs
  obtain ⟨cs', n, rfl⟩ : ∃ cs' n, cs = cs' ++ [n] := by
    rcases List.eq_nil_or_concat cs with h | ⟨a, b, h⟩
    · exact absurd h hcsne
    · exact ⟨a, b, by rw [h, List.concat_eq_append]⟩
  have hslash : ∀ m ∈ cs' ++ [n], '/' ∉ m :=
    fun m hm => (valid_name_facts (hnames m hm)).2.1
  have hslash' : ∀ m ∈ cs', '/' ∉ m := fun m hm => hslash m (List.mem_append_left _ hm)
  have hnslash : '/' ∉ n :=
    hslash n (List.mem_append_right _ (List.mem_cons_self _ _))
  have hmp := make_path_to_parent_concat hslash' hnslash
  rw [hcs, hmp] at heqm
  injection heqm with heqm
  have hpp : pathOf cs' = pp := (Prod.mk.injEq .. ▸ heqm).1
  have hcomp : n = comp := (Prod.mk.injEq .. ▸ heqm).2
  rw [← hpp, lock_path_pathOf hslash'] at heql
  obtain ⟨rnd, hr, _⟩ := w.root_present
  obtain ⟨pnd, hpar⟩ := resolveC_some_dom w cs' 0 parent ⟨rnd, hr⟩ heql
  have hname : valid_name comp = true := by
    rw [← hcomp]
    exact hnames n (List.mem_append_right _ (List.mem_cons_self _ _))
  have habs : hmap_get comp pnd.map = none := by
    have hx := heqc
    unfold child at hx
    rw [hpar] at hx
    exact hx
  exact wf_create_aux w hpar hname habs rfl

/-- A successful `tree_remove` — unhooking a childless node from its
parent's map and freeing it — preserves well-formedness. -/
theorem wf_remove_aux {s : TreeState} (w : WF s) {parent : Nat} {pnd : Node}
    (hpar : getNode s parent = some pnd) {component : Name} {node : Nat}
    (hchild : hmap_get component pnd.map = some node)
    {cnd : Node} (hcnd : getNode s node = some cnd) (hempty : cnd.map = [])
    {s' : TreeState}
    (hs' : s' = delNode (setNode s parent
      (fun nd' => { nd' with map := hmap_remove component nd'.map })) node) :
    WF s' := by
  have hmem : (component, node) ∈ pnd.map := hmap_get_mem hchild
  obtain ⟨hnode0, cnd2, hcnd2, hcp⟩ := w.edge_down parent pnd hpar (component, node) hmem
  rw [hcnd] at hcnd2
  injection hcnd2 with hcnd2
  subst hcnd2
  have hpn : parent ≠ node := by
    intro he
    have : resolveC s node [component] = some node := by
      simp only [resolveC]
      rw [show child s node component = some node from by
        unfold child; rw [← he, hpar]; exact he ▸ hchild]
    exact List.noConfusion (wf_no_cycle w node [component] this)
  have hnochild : ∀ j jnd, getNode s j = some jnd → jnd.parent ≠ some node := by
    intro j jnd hj hp
    have hj0 : j ≠ 0 := by
      intro h0
      obtain ⟨rnd, hr, hrp⟩ := w.root_present
      rw [h0, hr] at hj
      injection hj with hj
      rw [hj] at hrp
      rw [hrp] at hp
      exact Option.noConfusion hp
    obtain ⟨p, pnd2, hpp, hpg, n, hn⟩ := w.edge_up j jnd hj hj0
    rw [hp] at hpp
    injection hpp with hpp
    rw [← hpp] at hpg
    rw [hcnd] at hpg
    injection hpg with hpg
    rw [← hpg, hempty] at hn
    simp at hn
  have hslot : ∀ b m, Edge s b m node → b = parent ∧ m = component := by
    intro b m he
    obtain ⟨bnd, hbg, hbm⟩ := he
    obtain ⟨_, cnd3, hc3, hcp3⟩ := w.edge_down b bnd hbg (m, node) hbm
    rw [hcnd] at hc3
    injection hc3 with hc3
    rw [← hc3] at hcp3
    rw [hcp] at hcp3
    injection hcp3 with hcp3
    rw [← hcp3] at hbg
    have hx : bnd = pnd := by
      rw [hbg] at hpar
      injection hpar with hx
    have hmem2 : (component, node) ∈ bnd.map := by
      rw [hx]
      exact hmem
    refine ⟨hcp3.symm, ?_⟩
    have hinj := List.inj_on_of_nodup_map (w.values_nodup parent bnd hbg)
    have h2 := hinj hbm hmem2 rfl
    exact (Prod.mk.injEq .. ▸ h2).1
  have hget : ∀ j, getNode s' j =
      if j = node then none
      else if j = parent then
        some { map := hmap_remove component pnd.map, parent := pnd.parent }
      else getNode s j := by
    intro j
    rw [hs', getNode_del]
    by_cases hjn : j = node
    · rw [if_pos hjn, if_pos hjn]
    · rw [if_neg hjn, if_neg hjn, getNode_set]
      by_cases hjp : j = parent
      · rw [if_pos hjp, if_pos hjp, hjp, hpar]
        rfl
      · rw [if_neg hjp, if_neg hjp]
  have haux : ∀ j jnd, getNode s j = some jnd → j ≠ node →
      ∃ jnd', getNode s' j = some jnd' ∧ jnd'.parent = jnd.parent ∧
        (∀ e ∈ jnd.map, e.2 ≠ node → e ∈ jnd'.map) ∧
        (∀ e ∈ jnd'.map, e ∈ jnd.map) := by
    intro j jnd hj hjn
    rw [hget j, if_neg hjn]
    by_cases hjp : j = parent
    · subst hjp
      rw [hpar] at hj
      injection hj with hj
      subst hj
      rw [if_pos rfl]
      refine ⟨_, rfl, rfl, ?_, ?_⟩
      · intro e he hen
        have hek : e.1 ≠ component := by
          intro hk
          have he' : (component, e.2) ∈ pnd.map := by
            obtain ⟨e1, e2⟩ := e
            simp only at hk
            rw [hk] at he
            exact he
          have := mem_hmap_get (w.maps_nodup j pnd hpar) he'
          rw [hchild] at this
          injection this with this
          exact hen this.symm
        exact mem_hmap_remove_of_ne hek he
      · intro e he
        exact (hmap_remove_sublist component pnd.map).mem he
    · rw [if_neg hjp]
      refine ⟨jnd, hj, rfl, fun e he _ => he, fun e he => he⟩
  have htrans : ∀ j, Grounded s j → j ≠ node → Grounded s' j := by
    intro j hg
    induction hg with
    | root => intro _; exact Grounded.root
    | step j nd2 p2 hnd2 hp2 _ ih =>
      intro hjn
      have hp2n : p2 ≠ node := by
        intro he
        exact hnochild j nd2 hnd2 (he ▸ hp2)
      obtain ⟨jnd', hj', hpf, _, _⟩ := haux j nd2 hnd2 hjn
      exact Grounded.step j jnd' p2 hj' (by rw [hpf, hp2]) (ih hp2n)
  have hnext : s'.next = s.next := by rw [hs']; rfl
  refine ⟨?_, ?_, ?_, ?_, ?_, ?_, ?_, ?_, ?_⟩
  · have hsub : s'.nodes.map (fun e => e.1) |>.Sublist (s.nodes.map (fun e => e.1)) := by
      rw [hs']
      show ((((setNode s parent _).nodes).filter _).map (fun e => e.1)).Sublist _
      have h1 : ((setNode s parent
          (fun nd' => { nd' with map := hmap_remove component nd'.map })).nodes.filter
            (fun e => decide (e.1 ≠ node))).Sublist
          (setNode s parent
            (fun nd' => { nd' with map := hmap_remove component nd'.map })).nodes :=
        List.filter_sublist _
      have h2 := h1.map (fun e => e.1)
      refine h2.trans ?_
      rw [show (setNode s parent
          (fun nd' => { nd' with map := hmap_remove component nd'.map })).nodes =
        s.nodes.map (fun e => if e.1 = parent then
          (e.1, { e.2 with map := hmap_remove component e.2.map }) else e) from rfl]
      rw [map_fst_set parent
        (fun nd' => { nd' with map := hmap_remove component nd'.map }) s.nodes]
    exact w.nodupIds.sublist hsub
  · obtain ⟨rnd, hr, hrp⟩ := w.root_present
    rw [hget 0, if_neg (fun h => hnode0 h.symm)]
    by_cases h0p : (0 : Nat) = parent
    · rw [if_pos h0p]
      refine ⟨_, rfl, ?_⟩
      have hpr : pnd = rnd := by
        rw [← h0p] at hpar
        rw [hpar] at hr
        injection hr with hr
      show pnd.parent = none
      rw [hpr, hrp]
    · rw [if_neg h0p]
      exact ⟨rnd, hr, hrp⟩
  · intro id nd h
    rw [hget id] at h
    by_cases hidn : id = node
    · rw [if_pos hidn] at h; exact Option.noConfusion h
    · rw [if_neg hidn] at h
      by_cases hidp : id = parent
      · rw [if_pos hidp] at h
        injection h with h
        rw [← h]
        exact ((hmap_remove_sublist component pnd.map).map (fun e => e.1)).nodup
          (w.maps_nodup parent pnd hpar)
      · rw [if_neg hidp] at h
        exact w.maps_nodup id nd h
  · intro id nd h e he
    rw [hget id] at h
    by_cases hidn : id = node
    · rw [if_pos hidn] at h; exact Option.noConfusion h
    · rw [if_neg hidn] at h
      by_cases hidp : id = parent
      · rw [if_pos hidp] at h
        injection h with h
        rw [← h] at he
        exact w.names_valid parent pnd hpar e
          ((hmap_remove_sublist component pnd.map).mem he)
      · rw [if_neg hidp] at h
        exact w.names_valid id nd h e he
  · intro id nd h e he
    rw [hget id] at h
    by_cases hidn : id = node
    · rw [if_pos hidn] at h; exact Option.noConfusion h
    · rw [if_neg hidn] at h
      by_cases hidp : id = parent
      · rw [if_pos hidp] at h
        injection h with h
        rw [← h] at he
        have he' : e ∈ pnd.map := (hmap_remove_sublist component pnd.map).mem he
        obtain ⟨hne0, cnd3, hc3, hcp3⟩ := w.edge_down parent pnd hpar e he'
        have hen : e.2 ≠ node := by
          intro hv
          have heq := hslot parent e.1 ⟨pnd, hpar, by
            obtain ⟨e1, e2⟩ := e
            simp only at hv ⊢
            rw [← hv]
            exact he'⟩
          have : e = (component, node) := by
            obtain ⟨e1, e2⟩ := e
            simp only at hv heq ⊢
            rw [heq.2, hv]
          rw [this] at he
          have hn' := mem_hmap_get (((hmap_remove_sublist component pnd.map).map
            (fun x => x.1)).nodup (w.maps_nodup parent pnd hpar)) he
          rw [hmap_get_remove_self (w.maps_nodup parent pnd hpar)] at hn'
          exact Option.noConfusion hn'
        obtain ⟨cnd', hgc', hpf, _, _⟩ := haux e.2 cnd3 hc3 hen
        exact ⟨hne0, cnd', hgc', by rw [hpf, hcp3, hidp]⟩
      · rw [if_neg hidp] at h
        obtain ⟨hne0, cnd3, hc3, hcp3⟩ := w.edge_down id nd h e he
        have hen : e.2 ≠ node := by
          intro hv
          have heq := hslot id e.1 ⟨nd, h, by
            obtain ⟨e1, e2⟩ := e
            simp only at hv ⊢
            rw [← hv]
            exact he⟩
          exact hidp heq.1
        obtain ⟨cnd', hgc', hpf, _, _⟩ := haux e.2 cnd3 hc3 hen
        exact ⟨hne0, cnd', hgc', by rw [hpf, hcp3]⟩
  · intro id nd h
    rw [hget id] at h
    by_cases hidn : id = node
    · rw [if_pos hidn] at h; exact Option.noConfusion h
    · rw [if_neg hidn] at h
      by_cases hidp : id = parent
      · rw [if_pos hidp] at h
        injection h with h
        rw [← h]
        exact ((hmap_remove_sublist component pnd.map).map (fun e => e.2)).nodup
          (w.values_nodup parent pnd hpar)
      · rw [if_neg hidp] at h
        exact w.values_nodup id nd h
  · intro id nd h h0
    rw [hget id] at h
    by_cases hidn : id = node
    · rw [if_pos hidn] at h; exact Option.noConfusion h
    · rw [if_neg hidn] at h
      have hane : ∀ (p : Nat) (pnd2 : Node) (n : Name), getNode s p = some pnd2 →
          (n, id) ∈ pnd2.map → p ≠ node := by
        intro p pnd2 n hpg hn hpe
        rw [hpe, hcnd] at hpg
        injection hpg with hpg
        rw [← hpg, hempty] at hn
        simp at hn
      by_cases hidp : id = parent
      · rw [if_pos hidp] at h
        injection h with h
        have h0p : parent ≠ 0 := hidp ▸ h0
        obtain ⟨p, pnd2, hpp, hpg, n, hn⟩ := w.edge_up parent pnd hpar h0p
        have hpn2 : p ≠ node := hane p pnd2 n hpg (hidp ▸ hn)
        obtain ⟨pnd2', hg', hpf, hkeep, _⟩ := haux p pnd2 hpg hpn2
        refine ⟨p, pnd2', ?_, hg', n, ?_⟩
        · rw [← h]
          exact hpp
        · refine hkeep (n, id) (hidp ▸ hn) ?_
          simp only
          exact hidn
      · rw [if_neg hidp] at h
        obtain ⟨p, pnd2, hpp, hpg, n, hn⟩ := w.edge_up id nd h h0
        have hpn2 : p ≠ node := hane p pnd2 n hpg hn
        obtain ⟨pnd2', hg', hpf, hkeep, _⟩ := haux p pnd2 hpg hpn2
        refine ⟨p, pnd2', hpp, hg', n, hkeep (n, id) hn ?_⟩
        simp only
        exact hidn
  · intro id nd h
    have hidn : id ≠ node := by
      intro he
      rw [hget id, if_pos he] at h
      exact Option.noConfusion h
    rw [hget id, if_neg hidn] at h
    by_cases hidp : id = parent
    · subst hidp
      exact htrans _ (w.grounded _ pnd hpar) hidn
    · rw [if_neg hidp] at h
      exact htrans _ (w.grounded _ nd h) hidn
  · intro id nd h
    rw [hnext]
    have hidn : id ≠ node := by
      intro he
      rw [hget id, if_pos he] at h
      exact Option.noConfusion h
    rw [hget id, if_neg hidn] at h
    by_cases hidp : id = parent
    · subst hidp
      exact w.fresh _ pnd hpar
    · rw [if_neg hidp] at h
      exact w.fresh id nd h

/-- `tree_remove` preserves well-formedness. -/
theorem wf_tree_remove {s : TreeState} (w : WF s) (p : List Char) :
    WF (tree_remove s p).2 := by
  unfold tree_remove
  split
  · exact w
  rename_i hval
  split
  · exact w
  rename_i pp comp heqm
  split
  · exact w
  rename_i parent heql
  split
  · exact w
  rename_i node heqc
  split
  · exact w
  rename_i nd heqn
  split
  · exact w
  rename_i hempty
  obtain ⟨cs, hcs, hnames, hlen⟩ := valid_elim (not_not.mp hval)
  have hcsne : cs ≠ [] := by
    intro he
    rw [he] at hcs
    rw [hcs] at heqm
    rw [make_path_to_parent_root] at heqm
    exact Option.noConfusion heqm
  obtain ⟨cs', n, rfl⟩ : ∃ cs' n, cs = cs' ++ [n] := by
    rcases List.eq_nil_or_concat cs with h | ⟨a, b, h⟩
    · exact absurd h hcsne
    · exact ⟨a, b, by rw [h, List.concat_eq_append]⟩
  have hslash : ∀ m ∈ cs' ++ [n], '/' ∉ m :=
    fun m hm => (valid_name_facts (hnames m hm)).2.1
  have hslash' : ∀ m ∈ cs', '/' ∉ m := fun m hm => hslash m (List.mem_append_left _ hm)
  have hnslash : '/' ∉ n :=
    hslash n (List.mem_append_right _ (List.mem_cons_self _ _))
  have hmp := make_path_to_parent_concat hslash' hnslash
  rw [hcs, hmp] at heqm
  injection heqm with heqm
  have hpp : pathOf cs' = pp := (Prod.mk.injEq .. ▸ heqm).1
  rw [← hpp, lock_path_pathOf hslash'] at heql
  obtain ⟨rnd, hr, _⟩ := w.root_present
  obtain ⟨pnd, hpar⟩ := resolveC_some_dom w cs' 0 parent ⟨rnd, hr⟩ heql
  have hchild : hmap_get comp pnd.map = some node := by
    have hx := heqc
    unfold child at hx
    rw [hpar] at hx
    exact hx
  have hempty' : nd.map = [] := not_not.mp hempty
  exact wf_remove_aux w hpar hchild heqn hempty' rfl

theorem setNode_keys (s : TreeState) (id : Nat) (f : Node → Node) :
    (setNode s id f).nodes.map (fun e => e.1) = s.nodes.map (fun e => e.1) :=
  map_fst_set id f s.nodes

/-- A successful general-case `tree_move` — unhooking the found node from
the map it hangs in, hanging it in the target map under a fresh name and
re-pointing its parent — preserves well-formedness, provided the node the
new binding is placed under is not inside the moved node's subtree. -/
theorem wf_move_aux {s : TreeState} (w : WF s)
    {sp : Nat} {spnd : Node} (hsp : getNode s sp = some spnd)
    {tp : Nat} {tpnd : Node} (htp : getNode s tp = some tpnd)
    {sname : Name} {sn : Nat} (hsnget : hmap_get sname spnd.map = some sn)
    {tname : Name} (htname : valid_name tname = true)
    (htabs : hmap_get tname tpnd.map = none)
    (hnotdesc : ∀ cs, resolveC s sn cs ≠ some tp)
    {s' : TreeState}
    (hs' : s' = setNode (setNode (setNode s sp
        (fun nd => { nd with map := hmap_remove sname nd.map })) tp
        (fun nd => { nd with map := hmap_insert tname sn nd.map })) sn
        (fun nd => { nd with parent := some tp })) :
    WF s' := by
  have hmems : (sname, sn) ∈ spnd.map := hmap_get_mem hsnget
  obtain ⟨hsn0, snnd, hsnd, hsnp⟩ := w.edge_down sp spnd hsp (sname, sn) hmems
  simp only at hsn0 hsnp
  have hsnsp : sn ≠ sp := by
    intro he
    have : resolveC s sp [sname] = some sp := by
      simp only [resolveC]
      rw [show child s sp sname = some sp from by
        unfold child; rw [hsp]; rw [he] at hsnget; exact hsnget]
    exact List.noConfusion (wf_no_cycle w sp [sname] this)
  have hsntp : sn ≠ tp := by
    intro he
    exact hnotdesc [] (by rw [resolveC, he])
  have hslot : ∀ b m, Edge s b m sn → b = sp ∧ m = sname := by
    intro b m he
    obtain ⟨bnd, hbg, hbm⟩ := he
    obtain ⟨_, cnd3, hc3, hcp3⟩ := w.edge_down b bnd hbg (m, sn) hbm
    rw [hsnd] at hc3
    injection hc3 with hc3
    rw [← hc3] at hcp3
    rw [hsnp] at hcp3
    injection hcp3 with hcp3
    rw [← hcp3] at hbg
    have hx : bnd = spnd := by
      rw [hbg] at hsp
      injection hsp with hx
    have hmem2 : (sname, sn) ∈ bnd.map := by
      rw [hx]
      exact hmems
    refine ⟨hcp3.symm, ?_⟩
    have hinj := List.inj_on_of_nodup_map (w.values_nodup sp bnd hbg)
    have h2 := hinj hbm hmem2 rfl
    exact (Prod.mk.injEq .. ▸ h2).1
  have hget : ∀ j, getNode s' j =
      if j = sn then some { map := snnd.map, parent := some tp }
      else if j = tp then
        some { map := (tname, sn) ::
                 (if sp = tp then hmap_remove sname tpnd.map else tpnd.map),
               parent := tpnd.parent }
      else if j = sp then
        some { map := hmap_remove sname spnd.map, parent := spnd.parent }
      else getNode s j := by
    intro j
    rw [hs', getNode_set, getNode_set, getNode_set]
    by_cases hjsn : j = sn
    · rw [if_pos hjsn, if_pos hjsn, if_neg (hjsn ▸ hsntp), if_neg (hjsn ▸ hsnsp),
        hjsn, hsnd]
      rfl
    · rw [if_neg hjsn, if_neg hjsn]
      by_cases hjtp : j = tp
      · rw [if_pos hjtp, if_pos hjtp]
        by_cases hjsp : j = sp
        · rw [if_pos hjsp, hjsp, hsp]
          have hsptp : sp = tp := by rw [← hjsp, hjtp]
          rw [if_pos hsptp]
          have htsame : tpnd = spnd := by
            rw [hsptp] at hsp
            rw [hsp] at htp
            injection htp with hx
            exact hx.symm
          rw [htsame]
          rfl
        · rw [if_neg hjsp, hjtp, htp]
          have hsptp : ¬ (sp = tp) := by
            intro he
            exact hjsp (by rw [hjtp, he])
          rw [if_neg hsptp]
          rfl
      · rw [if_neg hjtp, if_neg hjtp]
        by_cases hjsp : j = sp
        · rw [if_pos hjsp, if_pos hjsp, hjsp, hsp]
          rfl
        · rw [if_neg hjsp, if_neg hjsp]
  have haux : ∀ j jnd, getNode s j = some jnd → j ≠ sn →
      ∃ jnd', getNode s' j = some jnd' ∧ jnd'.parent = jnd.parent ∧
        (∀ e ∈ jnd.map, e.2 ≠ sn → e ∈ jnd'.map) ∧
        (∀ e ∈ jnd'.map, e ∈ jnd.map ∨ e = (tname, sn)) := by
    intro j jnd hj hjsn
    rw [hget j, if_neg hjsn]
    have hkeep : ∀ e ∈ spnd.map, e.2 ≠ sn → e ∈ hmap_remove sname spnd.map := by
      intro e he hen
      refine mem_hmap_remove_of_ne ?_ he
      intro hk
      have he' : (sname, e.2) ∈ spnd.map := by
        obtain ⟨e1, e2⟩ := e
        simp only at hk
        rw [hk] at he
        exact he
      have := mem_hmap_get (w.maps_nodup sp spnd hsp) he'
      rw [hsnget] at this
      injection this with this
      exact hen this.symm
    by_cases hjtp : j = tp
    · rw [if_pos hjtp]
      have hjnd : jnd = tpnd := by
        rw [hjtp, htp] at hj
        injection hj with hj
        exact hj.symm
      subst hjnd
      refine ⟨_, rfl, rfl, ?_, ?_⟩
      · intro e he hen
        refine List.mem_cons_of_mem _ ?_
        by_cases hsptp : sp = tp
        · rw [if_pos hsptp]
          have hsame : jnd = spnd := by
            rw [hsptp] at hsp
            rw [htp] at hsp
            injection hsp with hx
          rw [hsame] at he ⊢
          exact hkeep e he hen
        · rw [if_neg hsptp]
          exact he
      · intro e he
        rcases List.mem_cons.mp he with he1 | he1
        · exact Or.inr he1
        · left
          by_cases hsptp : sp = tp
          · rw [if_pos hsptp] at he1
            exact (hmap_remove_sublist sname jnd.map).mem he1
          · rw [if_neg hsptp] at he1
            exact he1
    · rw [if_neg hjtp]
      by_cases hjsp : j = sp
      · rw [if_pos hjsp]
        have hjnd : jnd = spnd := by
          rw [hjsp, hsp] at hj
          injection hj with hj
          exact hj.symm
        subst hjnd
        refine ⟨_, rfl, rfl, ?_, ?_⟩
        · intro e he hen
          exact hkeep e he hen
        · intro e he
          exact Or.inl ((hmap_remove_sublist sname jnd.map).mem he)
      · rw [if_neg hjsp]
        exact ⟨jnd, hj, rfl, fun e he _ => he, fun e he => Or.inl he⟩
  have haux2 : ∀ id nd', getNode s' id = some nd' → id ≠ sn →
      ∃ ndo, getNode s id = some ndo ∧ nd'.parent = ndo.parent ∧
        (∀ e ∈ ndo.map, e.2 ≠ sn → e ∈ nd'.map) := by
    intro id nd' h hidsn
    obtain ⟨ndo, hndo⟩ : ∃ ndo, getNode s id = some ndo := by
      rw [hget id, if_neg hidsn] at h
      by_cases hidtp : id = tp
      · exact ⟨tpnd, hidtp ▸ htp⟩
      · rw [if_neg hidtp] at h
        by_cases hidsp : id = sp
        · exact ⟨spnd, hidsp ▸ hsp⟩
        · rw [if_neg hidsp] at h
          exact ⟨nd', h⟩
    obtain ⟨jnd', hj', hpf, hkeep, _⟩ := haux id ndo hndo hidsn
    rw [h] at hj'
    injection hj' with hj'
    subst hj'
    exact ⟨ndo, hndo, hpf, hkeep⟩
  have hnsub : ∀ j, Grounded s j → (∀ cs, resolveC s sn cs ≠ some j) →
      Grounded s' j := by
    intro j hg
    induction hg with
    | root => intro _; exact Grounded.root
    | step j nd2 p2 hnd2 hp2 _ ih =>
      intro hj
      have hj0 : j ≠ 0 := by
        intro h0
        obtain ⟨rnd, hr, hrp⟩ := w.root_present
        rw [h0, hr] at hnd2
        injection hnd2 with hx
        rw [hx] at hrp
        rw [hrp] at hp2
        exact Option.noConfusion hp2
      have hp2sub : ∀ cs, resolveC s sn cs ≠ some p2 := by
        intro cs hcs
        obtain ⟨p', pnd2, hpp, hpg, n, hn⟩ := w.edge_up j nd2 hnd2 hj0
        rw [hp2] at hpp
        injection hpp with hpp
        subst hpp
        have hc : child s p2 n = some j := by
          unfold child
          rw [hpg]
          exact mem_hmap_get (w.maps_nodup p2 pnd2 hpg) hn
        apply hj (cs ++ [n])
        rw [resolveC_append, hcs]
        simp only [resolveC]
        rw [hc]
      have hjsn : j ≠ sn := by
        intro he
        exact hj [] (by rw [he]; rfl)
      obtain ⟨jnd', hj', hpf, _, _⟩ := haux j nd2 hnd2 hjsn
      exact Grounded.step j jnd' p2 hj' (by rw [hpf, hp2]) (ih hp2sub)
  have hg_tp : Grounded s' tp := hnsub tp (w.grounded tp tpnd htp) hnotdesc
  have hg_sn : Grounded s' sn :=
    Grounded.step sn { map := snnd.map, parent := some tp } tp
      (by rw [hget sn, if_pos rfl]) rfl hg_tp
  have htrans : ∀ j, Grounded s j → Grounded s' j := by
    intro j hg
    induction hg with
    | root => exact Grounded.root
    | step j nd2 p2 hnd2 hp2 _ ih =>
      by_cases hjsn : j = sn
      · rw [hjsn]
        exact hg_sn
      · obtain ⟨jnd', hj', hpf, _, _⟩ := haux j nd2 hnd2 hjsn
        exact Grounded.step j jnd' p2 hj' (by rw [hpf, hp2]) ih
  have hnext : s'.next = s.next := by rw [hs']; rfl
  refine ⟨?_, ?_, ?_, ?_, ?_, ?_, ?_, ?_, ?_⟩
  · have hkeys : s'.nodes.map (fun e => e.1) = s.nodes.map (fun e => e.1) := by
      rw [hs', setNode_keys, setNode_keys, setNode_keys]
    rw [hkeys]
    exact w.nodupIds
  · obtain ⟨rnd, hr, hrp⟩ := w.root_present
    rw [hget 0, if_neg (fun h => hsn0 h.symm)]
    by_cases h0tp : (0 : Nat) = tp
    · rw [if_pos h0tp]
      refine ⟨_, rfl, ?_⟩
      have hx : tpnd = rnd := by
        rw [← h0tp] at htp
        rw [htp] at hr
        injection hr
      show tpnd.parent = none
      rw [hx, hrp]
    · rw [if_neg h0tp]
      by_cases h0sp : (0 : Nat) = sp
      · rw [if_pos h0sp]
        refine ⟨_, rfl, ?_⟩
        have hx : spnd = rnd := by
          rw [← h0sp] at hsp
          rw [hsp] at hr
          injection hr
        show spnd.parent = none
        rw [hx, hrp]
      · rw [if_neg h0sp]
        exact ⟨rnd, hr, hrp⟩
  · intro id nd h
    rw [hget id] at h
    by_cases hidsn : id = sn
    · rw [if_pos hidsn] at h
      injection h with h
      rw [← h]
      exact w.maps_nodup sn snnd hsnd
    · rw [if_neg hidsn] at h
      by_cases hidtp : id = tp
      · rw [if_pos hidtp] at h
        injection h with h
        rw [← h]
        simp only [List.map_cons]
        refine List.nodup_cons.mpr ⟨?_, ?_⟩
        · intro hmem
          have hx : tname ∈ tpnd.map.map (fun e => e.1) := by
            by_cases hsptp : sp = tp
            · rw [if_pos hsptp] at hmem
              exact ((hmap_remove_sublist sname tpnd.map).map (fun e => e.1)).subset hmem
            · rw [if_neg hsptp] at hmem
              exact hmem
          exact not_mem_keys_of_hmap_get_none htabs hx
        · by_cases hsptp : sp = tp
          · rw [if_pos hsptp]
            exact ((hmap_remove_sublist sname tpnd.map).map (fun e => e.1)).nodup
              (w.maps_nodup tp tpnd htp)
          · rw [if_neg hsptp]
            exact w.maps_nodup tp tpnd htp
      · rw [if_neg hidtp] at h
        by_cases hidsp : id = sp
        · rw [if_pos hidsp] at h
          injection h with h
          rw [← h]
          exact ((hmap_remove_sublist sname spnd.map).map (fun e => e.1)).nodup
            (w.maps_nodup sp spnd hsp)
        · rw [if_neg hidsp] at h
          exact w.maps_nodup id nd h
  · intro id nd h e he
    rw [hget id] at h
    by_cases hidsn : id = sn
    · rw [if_pos hidsn] at h
      injection h with h
      rw [← h] at he
      exact w.names_valid sn snnd hsnd e he
    · rw [if_neg hidsn] at h
      by_cases hidtp : id = tp
      · rw [if_pos hidtp] at h
        injection h with h
        rw [← h] at he
        rcases List.mem_cons.mp he with he1 | he1
        · subst he1
          exact htname
        · have he2 : e ∈ tpnd.map := by
            by_cases hsptp : sp = tp
            · rw [if_pos hsptp] at he1
              exact (hmap_remove_sublist sname tpnd.map).mem he1
            · rw [if_neg hsptp] at he1
              exact he1
          exact w.names_valid tp tpnd htp e he2
      · rw [if_neg hidtp] at h
        by_cases hidsp : id = sp
        · rw [if_pos hidsp] at h
          injection h with h
          rw [← h] at he
          exact w.names_valid sp spnd hsp e
            ((hmap_remove_sublist sname spnd.map).mem he)
        · rw [if_neg hidsp] at h
          exact w.names_valid id nd h e he
  · intro id nd h e he
    rw [hget id] at h
    by_cases hidsn : id = sn
    · rw [if_pos hidsn] at h
      injection h with h
      rw [← h] at he
      obtain ⟨hne0, cnd3, hc3, hcp3⟩ := w.edge_down sn snnd hsnd e he
      have hen : e.2 ≠ sn := by
        intro hv
        have he2 : (e.1, sn) ∈ snnd.map := by
          obtain ⟨e1, e2⟩ := e
          simp only at hv ⊢
          rw [← hv]
          exact he
        have hcyc : resolveC s sn [e.1] = some sn := by
          simp only [resolveC]
          rw [show child s sn e.1 = some sn from by
            unfold child
            rw [hsnd]
            exact mem_hmap_get (w.maps_nodup sn snnd hsnd) he2]
        exact List.noConfusion (wf_no_cycle w sn [e.1] hcyc)
      obtain ⟨cnd', hgc', hpf, _, _⟩ := haux e.2 cnd3 hc3 hen
      refine ⟨hne0, cnd', hgc', ?_⟩
      rw [hpf, hcp3, hidsn]
    · rw [if_neg hidsn] at h
      by_cases hidtp : id = tp
      · rw [if_pos hidtp] at h
        injection h with h
        rw [← h] at he
        rcases List.mem_cons.mp he with he1 | he1
        · subst he1
          refine ⟨hsn0, { map := snnd.map, parent := some tp }, ?_, ?_⟩
          · show getNode s' sn = _
            rw [hget sn, if_pos rfl]
          · show some tp = some id
            rw [hidtp]
        · have he2 : e ∈ tpnd.map := by
            by_cases hsptp : sp = tp
            · rw [if_pos hsptp] at he1
              exact (hmap_remove_sublist sname tpnd.map).mem he1
            · rw [if_neg hsptp] at he1
              exact he1
          obtain ⟨hne0, cnd3, hc3, hcp3⟩ := w.edge_down tp tpnd htp e he2
          have hen : e.2 ≠ sn := by
            intro hv
            have heq := hslot tp e.1 ⟨tpnd, htp, by
              obtain ⟨e1, e2⟩ := e
              simp only at hv ⊢
              rw [← hv]
              exact he2⟩
            have hsptp : sp = tp := heq.1.symm
            rw [if_pos hsptp] at he1
            have hx : e = (sname, sn) := by
              obtain ⟨e1, e2⟩ := e
              simp only at hv heq ⊢
              rw [heq.2, hv]
            rw [hx] at he1
            have hn' := mem_hmap_get
              (((hmap_remove_sublist sname tpnd.map).map (fun x => x.1)).nodup
                (w.maps_nodup tp tpnd htp)) he1
            rw [hmap_get_remove_self (w.maps_nodup tp tpnd htp)] at hn'
            exact Option.noConfusion hn'
          obtain ⟨cnd', hgc', hpf, _, _⟩ := haux e.2 cnd3 hc3 hen
          refine ⟨hne0, cnd', hgc', ?_⟩
          rw [hpf, hcp3, hidtp]
      · rw [if_neg hidtp] at h
        by_cases hidsp : id = sp
        · rw [if_pos hidsp] at h
          injection h with h
          rw [← h] at he
          have he2 : e ∈ spnd.map := (hmap_remove_sublist sname spnd.map).mem he
          obtain ⟨hne0, cnd3, hc3, hcp3⟩ := w.edge_down sp spnd hsp e he2
          have hen : e.2 ≠ sn := by
            intro hv
            have heq := hslot sp e.1 ⟨spnd, hsp, by
              obtain ⟨e1, e2⟩ := e
              simp only at hv ⊢
              rw [← hv]
              exact he2⟩
            have hx : e = (sname, sn) := by
              obtain ⟨e1, e2⟩ := e
              simp only at hv heq ⊢
              rw [heq.2, hv]
            rw [hx] at he
            have hn' := mem_hmap_get
              (((hmap_remove_sublist sname spnd.map).map (fun x => x.1)).nodup
                (w.maps_nodup sp spnd hsp)) he
            rw [hmap_get_remove_self (w.maps_nodup sp spnd hsp)] at hn'
            exact Option.noConfusion hn'
          obtain ⟨cnd', hgc', hpf, _, _⟩ := haux e.2 cnd3 hc3 hen
          refine ⟨hne0, cnd', hgc', ?_⟩
          rw [hpf, hcp3, hidsp]
        · rw [if_neg hidsp] at h
          obtain ⟨hne0, cnd3, hc3, hcp3⟩ := w.edge_down id nd h e he
          have hen : e.2 ≠ sn := by
            intro hv
            have heq := hslot id e.1 ⟨nd, h, by
              obtain ⟨e1, e2⟩ := e
              simp only at hv ⊢
              rw [← hv]
              exact he⟩
            exact hidsp heq.1
          obtain ⟨cnd', hgc', hpf, _, _⟩ := haux e.2 cnd3 hc3 hen
          exact ⟨hne0, cnd', hgc', by rw [hpf, hcp3]⟩
  · intro id nd h
    rw [hget id] at h
    by_cases hidsn : id = sn
    · rw [if_pos hidsn] at h
      injection h with h
      rw [← h]
      exact w.values_nodup sn snnd hsnd
    · rw [if_neg hidsn] at h
      by_cases hidtp : id = tp
      · rw [if_pos hidtp] at h
        injection h with h
        rw [← h]
        simp only [List.map_cons]
        refine List.nodup_cons.mpr ⟨?_, ?_⟩
        · intro hmem
          obtain ⟨e, he1, hev⟩ := List.mem_map.mp hmem
          have he2 : e ∈ tpnd.map := by
            by_cases hsptp : sp = tp
            · rw [if_pos hsptp] at he1
              exact (hmap_remove_sublist sname tpnd.map).mem he1
            · rw [if_neg hsptp] at he1
              exact he1
          have heq := hslot tp e.1 ⟨tpnd, htp, by
            obtain ⟨e1, e2⟩ := e
            simp only at hev ⊢
            rw [← hev]
            exact he2⟩
          have hsptp : sp = tp := heq.1.symm
          rw [if_pos hsptp] at he1
          have hx : e = (sname, sn) := by
            obtain ⟨e1, e2⟩ := e
            simp only at hev heq ⊢
            rw [heq.2, hev]
          rw [hx] at he1
          have hn' := mem_hmap_get
            (((hmap_remove_sublist sname tpnd.map).map (fun x => x.1)).nodup
              (w.maps_nodup tp tpnd htp)) he1
          rw [hmap_get_remove_self (w.maps_nodup tp tpnd htp)] at hn'
          exact Option.noConfusion hn'
        · by_cases hsptp : sp = tp
          · rw [if_pos hsptp]
            exact ((hmap_remove_sublist sname tpnd.map).map (fun e => e.2)).nodup
              (w.values_nodup tp tpnd htp)
          · rw [if_neg hsptp]
            exact w.values_nodup tp tpnd htp
      · rw [if_neg hidtp] at h
        by_cases hidsp : id = sp
        · rw [if_pos hidsp] at h
          injection h with h
          rw [← h]
          exact ((hmap_remove_sublist sname spnd.map).map (fun e => e.2)).nodup
            (w.values_nodup sp spnd hsp)
        · rw [if_neg hidsp] at h
          exact w.values_nodup id nd h
  · intro id nd h h0
    by_cases hidsn : id = sn
    · rw [hget id, if_pos hidsn] at h
      injection h with h
      refine ⟨tp, { map := (tname, sn) ::
                      (if sp = tp then hmap_remove sname tpnd.map else tpnd.map),
                    parent := tpnd.parent }, ?_, ?_, tname, ?_⟩
      · rw [← h]
      · rw [hget tp, if_neg (fun hx => hsntp hx.symm), if_pos rfl]
      · rw [hidsn]
        exact List.mem_cons_self _ _
    · obtain ⟨ndo, hndo, hpf, _⟩ := haux2 id nd h hidsn
      obtain ⟨p, pnd2, hpp, hpg, n, hn⟩ := w.edge_up id ndo hndo h0
      by_cases hpsn : p = sn
      · have hx : pnd2 = snnd := by
          rw [hpsn, hsnd] at hpg
          injection hpg with hx2
          exact hx2.symm
        refine ⟨sn, { map := snnd.map, parent := some tp }, ?_, ?_, n, ?_⟩
        · rw [hpf, hpp, hpsn]
        · rw [hget sn, if_pos rfl]
        · show (n, id) ∈ snnd.map
          rw [← hx]
          exact hn
      · obtain ⟨pnd2', hg', hpf2, hkeep, _⟩ := haux p pnd2 hpg hpsn
        refine ⟨p, pnd2', by rw [hpf, hpp], hg', n, hkeep (n, id) hn ?_⟩
        simp only
        exact hidsn
  · intro id nd h
    by_cases hidsn : id = sn
    · rw [hidsn]
      exact hg_sn
    · rw [hget id, if_neg hidsn] at h
      by_cases hidtp : id = tp
      · rw [hidtp]
        exact htrans tp (w.grounded tp tpnd htp)
      · rw [if_neg hidtp] at h
        by_cases hidsp : id = sp
        · rw [hidsp]
          exact htrans sp (w.grounded sp spnd hsp)
        · rw [if_neg hidsp] at h
          exact htrans id (w.grounded id nd h)
  · intro id nd h
    rw [hnext]
    rw [hget id] at h
    by_cases hidsn : id = sn
    · rw [hidsn]
      exact w.fresh sn snnd hsnd
    · rw [if_neg hidsn] at h
      by_cases hidtp : id = tp
      · rw [hidtp]
        exact w.fresh tp tpnd htp
      · rw [if_neg hidtp] at h
        by_cases hidsp : id = sp
        · rw [hidsp]
          exact w.fresh sp spnd hsp
        · rw [if_neg hidsp] at h
          exact w.fresh id nd h

/-- Any two component lists split into a shared prefix followed by either
an empty remainder on one side or two remainders with different heads. -/
theorem names_decomp : ∀ (A B : List Name), ∃ K A' B',
    A = K ++ A' ∧ B = K ++ B' ∧
      (A' = [] ∨ B' = [] ∨
        ∃ a A2 b B2, A' = a :: A2 ∧ B' = b :: B2 ∧ a ≠ b) := by
  intro A
  induction A with
  | nil =>
    intro B
    exact ⟨[], [], B, rfl, rfl, Or.inl rfl⟩
  | cons a as ih =>
    intro B
    cases B with
    | nil => exact ⟨[], a :: as, [], rfl, rfl, Or.inr (Or.inl rfl)⟩
    | cons b bs =>
      by_cases hab : a = b
      · subst hab
        obtain ⟨K, A', B', h1, h2, h3⟩ := ih bs
        exact ⟨a :: K, A', B', by rw [List.cons_append, ← h1],
          by rw [List.cons_append, ← h2], h3⟩
      · exact ⟨[], a :: as, b :: bs, rfl, rfl,
          Or.inr (Or.inr ⟨a, as, b, bs, rfl, rfl, hab⟩)⟩

/-- The character-wise common prefix is a prefix of both arguments. -/
theorem flcp_parts : ∀ (a b : List Char), ∃ sh a2 b2,
    find_last_common_predecessor a b = sh ∧ a = sh ++ a2 ∧ b = sh ++ b2 := by
  intro a
  induction a with
  | nil =>
    intro b
    exact ⟨[], [], b, flcp_nil_left b, rfl, rfl⟩
  | cons c as ih =>
    intro b
    cases b with
    | nil => exact ⟨[], c :: as, [], flcp_nil_right (c :: as), rfl, rfl⟩
    | cons d bs =>
      by_cases hcd : c = d
      · subst hcd
        obtain ⟨sh, a2, b2, h1, h2, h3⟩ := ih bs
        refine ⟨c :: sh, a2, b2, ?_, ?_, ?_⟩
        · show (if c = c then c :: find_last_common_predecessor as bs else []) = c :: sh
          rw [if_pos rfl, h1]
        · rw [List.cons_append, ← h2]
        · rw [List.cons_append, ← h3]
      · exact ⟨[], c :: as, d :: bs, by simp [find_last_common_predecessor, hcd],
          rfl, rfl⟩

/-- A spelled path strictly extended by further components is its
successor in the sense of `is_successor`. -/
theorem is_successor_app (X Y : List Name) (hY : Y ≠ []) :
    is_successor (pathOf X) (pathOf (X ++ Y)) = true := by
  have h1 : pathOf (X ++ Y) = pathOf X ++ flatOf Y := by
    simp [pathOf, flatOf_append]
  have h2 : flatOf Y ≠ [] := by
    cases Y with
    | nil => exact absurd rfl hY
    | cons y Y2 =>
      rw [flatOf_cons]
      intro hx
      have := congrArg List.length hx
      simp at this
  have h3 : 0 < (flatOf Y).length := List.length_pos.mpr h2
  simp only [is_successor, h1, Bool.and_eq_true, decide_eq_true_eq]
  refine ⟨?_, ?_⟩
  · rw [List.length_append]
    omega
  · rw [List.take_left]

/-- `rest_path` after a text ending in anything: the last character of
the first argument survives together with the extension. -/
theorem rest_path_concat_exists (u z : List Char) (hu : ∃ v x, u = v ++ [x]) :
    ∃ x, rest_path u (u ++ z) = x :: z := by
  obtain ⟨v, x, rfl⟩ := hu
  exact ⟨x, rest_path_concat v x z⟩

/-- A spelled path followed by a slash-free fragment still ends in some
character. -/
theorem pathOf_app_concat (K : List Name) (sh : List Char) :
    ∃ v x, pathOf K ++ sh = v ++ [x] := by
  rcases List.eq_nil_or_concat sh with h | ⟨sh', x, h⟩
  · obtain ⟨v, hv⟩ := pathOf_concat K
    exact ⟨v, '/', by rw [h, List.append_nil, hv]⟩
  · exact ⟨pathOf K ++ sh', x,
      by rw [h, List.concat_eq_append, ← List.append_assoc]⟩

/-- A successful walk of `read_write_lock_path_root_excluding` resolves
the spelled components below the boundary node. -/
theorem lpre_some {s : TreeState} {root res : Nat} {n : Name} {Ns : List Name}
    {x : Char} (hn : '/' ∉ n) (hNs : ∀ m ∈ Ns, '/' ∉ m)
    (h : lock_path_root_excluding s root (x :: flatOf (n :: Ns)) = some res) :
    resolveC s root (n :: Ns) = some res := by
  rw [lock_path_root_excluding_flat hn hNs] at h
  simp only [resolveC]
  cases hch : child s root n with
  | none => rw [hch] at h; exact Option.noConfusion h
  | some sub => rw [hch] at h; exact h

/-- If the root paths of two nodes do not extend one another through the
moved child, no descent from the child reaches the second node. -/
theorem notdesc_of_paths {s : TreeState} (w : WF s) {Ps Pt : List Name}
    {sp tp sn : Nat} {sname : Name}
    (hPs : resolveC s 0 Ps = some sp) (hsn : child s sp sname = some sn)
    (hPt : resolveC s 0 Pt = some tp)
    (hne : ∀ cs, Ps ++ sname :: cs ≠ Pt) :
    ∀ cs, resolveC s sn cs ≠ some tp := by
  intro cs h
  have h1 : resolveC s 0 (Ps ++ sname :: cs) = some tp := by
    rw [resolveC_append, hPs]
    show resolveC s sp (sname :: cs) = some tp
    simp only [resolveC]
    rw [hsn]
    exact h
  exact hne cs (resolveC_inj w _ _ tp h1 hPt)

/-- The success state of `tree_move` is well-formed whenever the two
resolved parents have root paths that do not meet through the moved
child. -/
theorem wf_move_final {s : TreeState} (w : WF s) {Ps Pt : List Name}
    {source_parent target_parent source_node : Nat} {sname tname : Name}
    (hPs : resolveC s 0 Ps = some source_parent)
    (hPt : resolveC s 0 Pt = some target_parent)
    (heqc : child s source_parent sname = some source_node)
    (htname : valid_name tname = true)
    (heqtc : child s target_parent tname = none)
    (hneq : ∀ cs, Ps ++ sname :: cs ≠ Pt) :
    WF (setNode (setNode (setNode s source_parent
        (fun nd => { nd with map := hmap_remove sname nd.map })) target_parent
        (fun nd => { nd with map := hmap_insert tname source_node nd.map }))
        source_node
        (fun nd => { nd with parent := some target_parent })) := by
  obtain ⟨spnd, hsp⟩ := child_some_getNode heqc
  have hsnget : hmap_get sname spnd.map = some source_node := by
    have hx := heqc
    unfold child at hx
    rw [hsp] at hx
    exact hx
  obtain ⟨rnd, hr, _⟩ := w.root_present
  obtain ⟨tpnd, htp⟩ := resolveC_some_dom w Pt 0 target_parent ⟨rnd, hr⟩ hPt
  have htabs : hmap_get tname tpnd.map = none := by
    have hx := heqtc
    unfold child at hx
    rw [htp] at hx
    exact hx
  have hnotdesc : ∀ cs, resolveC s source_node cs ≠ some target_parent :=
    notdesc_of_paths w hPs heqc hPt hneq
  exact wf_move_aux w hsp htp hsnget htname htabs hnotdesc rfl

/-- `tree_move` preserves well-formedness on every input. -/
theorem wf_tree_move {s : TreeState} (w : WF s) (source target : List Char) :
    WF (tree_move s source target).2 := by
  unfold tree_move
  split
  · exact w
  rename_i hval
  split
  · exact w
  rename_i hsroot
  split
  · exact w
  rename_i htroot
  split
  · exact w
  rename_i hsucc1
  split
  · split
    · exact w
    · exact w
  rename_i hne
  split
  · split
    · exact w
    · exact w
  rename_i hsucc2
  split
  · exact w
  rename_i ptsp sname heqmS
  split
  · exact w
  rename_i pttp tname heqmT
  split
  · exact w
  rename_i lcp heqlcp
  split
  · exact w
  rename_i source_parent heqsp
  split
  · exact w
  rename_i source_node heqc
  split
  · exact w
  rename_i target_parent heqtp
  split
  · exact w
  rename_i heqtc
  have hSv : is_path_valid source = true := by
    by_contra hx
    exact hval (Or.inl hx)
  have hTv : is_path_valid target = true := by
    by_contra hx
    exact hval (Or.inr hx)
  obtain ⟨S, hSeq, hSnames, hSlen⟩ := valid_elim hSv
  obtain ⟨T, hTeq, hTnames, hTlen⟩ := valid_elim hTv
  subst hSeq
  subst hTeq
  have hSslash : ∀ n ∈ S, '/' ∉ n := fun n hn => (valid_name_facts (hSnames n hn)).2.1
  have hTslash : ∀ n ∈ T, '/' ∉ n := fun n hn => (valid_name_facts (hTnames n hn)).2.1
  have hSne : S ≠ [] := by
    intro h
    subst h
    exact hsroot (by decide)
  have hTne : T ≠ [] := by
    intro h
    subst h
    exact htroot (by decide)
  obtain ⟨A, sname0, hS⟩ : ∃ A n, S = A ++ [n] := by
    rcases List.eq_nil_or_concat S with h | ⟨x, y, h⟩
    · exact absurd h hSne
    · exact ⟨x, y, by rw [h, List.concat_eq_append]⟩
  obtain ⟨B, tname0, hT⟩ : ∃ B n, T = B ++ [n] := by
    rcases List.eq_nil_or_concat T with h | ⟨x, y, h⟩
    · exact absurd h hTne
    · exact ⟨x, y, by rw [h, List.concat_eq_append]⟩
  subst hS
  subst hT
  have hAslash : ∀ n ∈ A, '/' ∉ n := fun n hn => hSslash n (List.mem_append_left _ hn)
  have hsnsl : '/' ∉ sname0 :=
    hSslash sname0 (List.mem_append_right _ (List.mem_cons_self _ _))
  have hBslash : ∀ n ∈ B, '/' ∉ n := fun n hn => hTslash n (List.mem_append_left _ hn)
  have htnsl : '/' ∉ tname0 :=
    hTslash tname0 (List.mem_append_right _ (List.mem_cons_self _ _))
  rw [make_path_to_parent_concat hAslash hsnsl] at heqmS
  injection heqmS with heqmS
  have h1 := (Prod.mk.injEq .. ▸ heqmS).1
  have h2 := (Prod.mk.injEq .. ▸ heqmS).2
  subst h1
  subst h2
  rw [make_path_to_parent_concat hBslash htnsl] at heqmT
  injection heqmT with heqmT
  have h3 := (Prod.mk.injEq .. ▸ heqmT).1
  have h4 := (Prod.mk.injEq .. ▸ heqmT).2
  subst h3
  subst h4
  have htname : valid_name tname0 = true :=
    hTnames tname0 (List.mem_append_right _ (List.mem_cons_self _ _))
  obtain ⟨K, A', B', hA, hB, hdisj⟩ := names_decomp A B
  subst hA
  subst hB
  have hKslash : ∀ n ∈ K, '/' ∉ n := fun n hn =>
    hSslash n (List.mem_append_left _ (List.mem_append_left _ hn))
  have hA'all : ∀ n ∈ A', '/' ∉ n := fun n hn =>
    hSslash n (List.mem_append_left _ (List.mem_append_right _ hn))
  have hB'all : ∀ n ∈ B', '/' ∉ n := fun n hn =>
    hTslash n (List.mem_append_left _ (List.mem_append_right _ hn))
  rcases hdisj with hA' | hB' | hheads
  · -- the source parent path is an ancestor of the target parent path
    rw [hA'] at heqlcp heqsp heqtp hsucc1
    have hflcp : find_last_common_predecessor (pathOf (K ++ ([] : List Name)))
        (pathOf (K ++ B')) = pathOf K := by
      have e1 : pathOf (K ++ ([] : List Name)) = pathOf K ++ ([] : List Char) := by
        simp
      have e2 : pathOf (K ++ B') = pathOf K ++ flatOf B' := by
        simp [pathOf, flatOf_append]
      rw [e1, e2, flcp_append, flcp_nil_left, List.append_nil]
    rw [hflcp] at heqlcp heqsp heqtp
    rw [lock_path_pathOf hKslash] at heqlcp
    rw [rest_path_pathOf K ([] : List Name)] at heqsp
    rw [if_neg (by decide)] at heqsp
    have hsp_eq := Option.some.inj heqsp
    subst hsp_eq
    rw [rest_path_pathOf K B'] at heqtp
    cases B' with
    | nil =>
      rw [if_neg (by decide)] at heqtp
      have htp_eq := Option.some.inj heqtp
      subst htp_eq
      refine wf_move_final w heqlcp heqlcp heqc htname heqtc ?_
      intro cs h
      have h5 := congrArg List.length h
      simp only [List.length_append, List.length_cons] at h5
      omega
    | cons b B2 =>
      have hb : '/' ∉ b := hB'all b (List.mem_cons_self _ _)
      have hB2all : ∀ m ∈ B2, '/' ∉ m := fun m hm => hB'all m (List.mem_cons_of_mem _ hm)
      rw [if_pos (by
        rw [show pathOf (b :: B2) = '/' :: flatOf (b :: B2) from rfl, flatOf_cons]
        simp only [List.length_cons, List.length_append]
        omega)] at heqtp
      have heqtp' : lock_path_root_excluding s lcp ('/' :: flatOf (b :: B2)) =
          some target_parent := heqtp
      have hres_t := lpre_some hb hB2all heqtp'
      have hPt : resolveC s 0 (K ++ b :: B2) = some target_parent := by
        rw [resolveC_append, heqlcp]
        exact hres_t
      refine wf_move_final w heqlcp hPt heqc htname heqtc ?_
      intro cs h
      have h5 := List.append_cancel_left h
      injection h5 with h6 h7
      subst h6
      subst h7
      apply hsucc1
      have hx := is_successor_app (K ++ [sname0]) (cs ++ [tname0]) (by simp)
      have e3 : (K ++ ([] : List Name)) ++ [sname0] = K ++ [sname0] := by simp
      have e4 : (K ++ sname0 :: cs) ++ [tname0] =
          (K ++ [sname0]) ++ (cs ++ [tname0]) := by simp
      rw [e3, e4]
      exact hx
  · -- the target parent path is an ancestor of the source parent path
    rw [hB'] at heqlcp heqsp heqtp
    have hflcp : find_last_common_predecessor (pathOf (K ++ A'))
        (pathOf (K ++ ([] : List Name))) = pathOf K := by
      have e1 : pathOf (K ++ ([] : List Name)) = pathOf K ++ ([] : List Char) := by
        simp
      have e2 : pathOf (K ++ A') = pathOf K ++ flatOf A' := by
        simp [pathOf, flatOf_append]
      rw [e1, e2, flcp_append, flcp_nil_right, List.append_nil]
    rw [hflcp] at heqlcp heqsp heqtp
    rw [lock_path_pathOf hKslash] at heqlcp
    rw [rest_path_pathOf K ([] : List Name)] at heqtp
    rw [if_neg (by decide)] at heqtp
    have htp_eq := Option.some.inj heqtp
    subst htp_eq
    rw [rest_path_pathOf K A'] at heqsp
    cases A' with
    | nil =>
      rw [if_neg (by decide)] at heqsp
      have hsp_eq := Option.some.inj heqsp
      subst hsp_eq
      refine wf_move_final w heqlcp heqlcp heqc htname heqtc ?_
      intro cs h
      have h5 := congrArg List.length h
      simp only [List.length_append, List.length_cons] at h5
      omega
    | cons a A2 =>
      have ha : '/' ∉ a := hA'all a (List.mem_cons_self _ _)
      have hA2all : ∀ m ∈ A2, '/' ∉ m := fun m hm => hA'all m (List.mem_cons_of_mem _ hm)
      rw [if_pos (by
        rw [show pathOf (a :: A2) = '/' :: flatOf (a :: A2) from rfl, flatOf_cons]
        simp only [List.length_cons, List.length_append]
        omega)] at heqsp
      have heqsp' : lock_path_root_excluding s lcp ('/' :: flatOf (a :: A2)) =
          some source_parent := heqsp
      have hres_s := lpre_some ha hA2all heqsp'
      have hPs : resolveC s 0 (K ++ a :: A2) = some source_parent := by
        rw [resolveC_append, heqlcp]
        exact hres_s
      refine wf_move_final w hPs heqlcp heqc htname heqtc ?_
      intro cs h
      have h5 := congrArg List.length h
      simp only [List.length_append, List.length_cons] at h5
      omega
  · -- the parent paths diverge strictly below their shared prefix
    obtain ⟨a, A2, b, B2, hA2eq, hB2eq, hab⟩ := hheads
    subst hA2eq
    subst hB2eq
    have ha : '/' ∉ a := hA'all a (List.mem_cons_self _ _)
    have hA2all : ∀ m ∈ A2, '/' ∉ m := fun m hm => hA'all m (List.mem_cons_of_mem _ hm)
    have hb : '/' ∉ b := hB'all b (List.mem_cons_self _ _)
    have hB2all : ∀ m ∈ B2, '/' ∉ m := fun m hm => hB'all m (List.mem_cons_of_mem _ hm)
    obtain ⟨sh, a2, b2, hsh, ha2eq, hb2eq⟩ := flcp_parts a b
    have hshsl : '/' ∉ sh := fun hx => ha (ha2eq ▸ List.mem_append_left _ hx)
    have ha2sl : '/' ∉ a2 := fun hx => ha (ha2eq ▸ List.mem_append_right _ hx)
    have hb2sl : '/' ∉ b2 := fun hx => hb (hb2eq ▸ List.mem_append_right _ hx)
    have ha2b2 : a2 ≠ b2 := by
      intro hx
      apply hab
      rw [ha2eq, hb2eq, hx]
    have e1 : pathOf (K ++ a :: A2) = pathOf K ++ (a ++ '/' :: flatOf A2) := by
      simp [pathOf, flatOf_append, flatOf_cons]
    have e2 : pathOf (K ++ b :: B2) = pathOf K ++ (b ++ '/' :: flatOf B2) := by
      simp [pathOf, flatOf_append, flatOf_cons]
    have hflcp : find_last_common_predecessor (pathOf (K ++ a :: A2))
        (pathOf (K ++ b :: B2)) = pathOf K ++ sh := by
      rw [e1, e2, flcp_append, flcp_names hab ha hb, hsh]
    rw [hflcp] at heqlcp heqsp heqtp
    rw [lock_path_app hshsl K hKslash] at heqlcp
    have ea : pathOf (K ++ a :: A2) = (pathOf K ++ sh) ++ (a2 ++ '/' :: flatOf A2) := by
      rw [e1, ha2eq]
      simp [List.append_assoc]
    obtain ⟨xs, hxs⟩ := rest_path_concat_exists (pathOf K ++ sh)
      (a2 ++ '/' :: flatOf A2) (pathOf_app_concat K sh)
    rw [ea, hxs] at heqsp
    rw [show a2 ++ '/' :: flatOf A2 = flatOf (a2 :: A2) from (flatOf_cons _ _).symm] at heqsp
    rw [if_pos (by
      rw [flatOf_cons]
      simp only [List.length_cons, List.length_append]
      omega)] at heqsp
    have hres_s := lpre_some ha2sl hA2all heqsp
    have hPs : resolveC s 0 (K ++ a2 :: A2) = some source_parent := by
      rw [resolveC_append, heqlcp]
      exact hres_s
    have eb : pathOf (K ++ b :: B2) = (pathOf K ++ sh) ++ (b2 ++ '/' :: flatOf B2) := by
      rw [e2, hb2eq]
      simp [List.append_assoc]
    obtain ⟨xt, hxt⟩ := rest_path_concat_exists (pathOf K ++ sh)
      (b2 ++ '/' :: flatOf B2) (pathOf_app_concat K sh)
    rw [eb, hxt] at heqtp
    rw [show b2 ++ '/' :: flatOf B2 = flatOf (b2 :: B2) from (flatOf_cons _ _).symm] at heqtp
    rw [if_pos (by
      rw [flatOf_cons]
      simp only [List.length_cons, List.length_append]
      omega)] at heqtp
    have hres_t := lpre_some hb2sl hB2all heqtp
    have hPt : resolveC s 0 (K ++ b2 :: B2) = some target_parent := by
      rw [resolveC_append, heqlcp]
      exact hres_t
    refine wf_move_final w hPs hPt heqc htname heqtc ?_
    intro cs h
    rw [List.append_assoc] at h
    have h5 := List.append_cancel_left h
    rw [List.cons_append] at h5
    injection h5 with h6 _
    exact ha2b2 h6

/-- Every reachable state is well-formed. -/
theorem reachable_wf {s : TreeState} (h : Reachable s) : WF s := by
  induction h with
  | init => exact wf_init
  | create p _ ih => exact wf_tree_create ih p
  | remove p _ ih => exact wf_tree_remove ih p
  | move a b _ ih => exact wf_tree_move ih a b

/-- A node is the child of at most one (parent, name) slot. -/
theorem edge_unique {s : TreeState} (w : WF s) {p1 p2 c : Nat} {n1 n2 : Name}
    (h1 : Edge s p1 n1 c) (h2 : Edge s p2 n2 c) : p1 = p2 ∧ n1 = n2 := by
  obtain ⟨nd1, hg1, hm1⟩ := h1
  obtain ⟨nd2, hg2, hm2⟩ := h2
  obtain ⟨_, cnd1, hc1, hp1⟩ := w.edge_down p1 nd1 hg1 (n1, c) hm1
  obtain ⟨_, cnd2, hc2, hp2⟩ := w.edge_down p2 nd2 hg2 (n2, c) hm2
  rw [hc1] at hc2
  have hcnd := Option.some.inj hc2
  rw [← hcnd] at hp2
  rw [hp1] at hp2
  have hpp := Option.some.inj hp2
  subst hpp
  rw [hg1] at hg2
  have hnd := Option.some.inj hg2
  subst hnd
  refine ⟨rfl, ?_⟩
  have hinj := List.inj_on_of_nodup_map (w.values_nodup p1 nd1 hg1)
  have hx := hinj hm1 hm2 rfl
  exact (Prod.mk.injEq .. ▸ hx).1

/-- Well-formedness implies the spec's tree invariant. -/
theorem wf_invariant {s : TreeState} (w : WF s) : Invariant s := by
  refine ⟨?_, w.maps_nodup, ?_, ?_, wf_no_cycle w⟩
  · intro id nd h h0
    obtain ⟨p, pnd, hp, hpg, n, hn⟩ := w.edge_up id nd h h0
    refine ⟨p, pnd, n, hp, hpg, hn, ?_⟩
    intro m hm
    have hinj := List.inj_on_of_nodup_map (w.values_nodup p pnd hpg)
    have hx := hinj hm hn rfl
    exact (Prod.mk.injEq .. ▸ hx).1
  · intro p n he
    obtain ⟨nd, hg, hm⟩ := he
    exact (w.edge_down p nd hg (n, 0) hm).1 rfl
  · intro p1 n1 p2 n2 c h1 h2
    exact edge_unique w h1 h2

/-- C5: in every state reachable from the fresh tree by any sequence of
`tree_create`, `tree_remove` and `tree_move` calls, every non-root node
hangs in its parent's child map under exactly one name with its parent
pointer pointing back, no child map repeats a name, the root is nobody's
child, no two map entries share a child node, and no nonempty descent
returns to its start. -/
theorem c5_reachable_invariant {s : TreeState} (h : Reachable s) : Invariant s :=
  wf_invariant (reachable_wf h)

/-- C5 witness: the invariant at the fresh tree, reachable by the empty
sequence of operations. -/
theorem c5_witness : Invariant tree_new :=
  c5_reachable_invariant Reachable.init

/-- `tree_create` on a spelled valid path, with the path plumbing
resolved to component descents. -/
theorem tree_create_eq (s : TreeState) {cs : List Name} {n : Name}
    (hnames : ∀ m ∈ cs ++ [n], valid_name m = true)
    (hlen : (pathOf (cs ++ [n])).length ≤ MAX_PATH_LENGTH) :
    tree_create s (pathOf (cs ++ [n])) =
      match resolveC s 0 cs with
      | none => (ENOENT, s)
      | some parent =>
        match child s parent n with
        | some _ => (EEXIST, s)
        | none =>
          (SUCCESS,
            { nodes := (s.next, { map := [], parent := some parent }) ::
                (setNode s parent
                  (fun nd => { nd with map := hmap_insert n s.next nd.map })).nodes,
              next := s.next + 1 }) := by
  have hslash : ∀ m ∈ cs ++ [n], '/' ∉ m := fun m hm => (valid_name_facts (hnames m hm)).2.1
  have hcs : ∀ m ∈ cs, '/' ∉ m := fun m hm => hslash m (List.mem_append_left _ hm)
  have hn : '/' ∉ n := hslash n (List.mem_append_right _ (List.mem_cons_self _ _))
  have hv : is_path_valid (pathOf (cs ++ [n])) = true := valid_intro hnames hlen
  have hroot : ¬ is_root (pathOf (cs ++ [n])) = true := by
    simp only [is_root, decide_eq_true_eq]
    intro h
    have h2 := pathOf_root h
    simp at h2
  unfold tree_create
  rw [if_neg (not_not_intro hv), if_neg hroot, make_path_to_parent_concat hcs hn]
  simp only []
  rw [lock_path_pathOf hcs]

/-- `tree_remove` on a spelled valid path, with the path plumbing
resolved to component descents. -/
theorem tree_remove_eq (s : TreeState) {cs : List Name} {n : Name}
    (hnames : ∀ m ∈ cs ++ [n], valid_name m = true)
    (hlen : (pathOf (cs ++ [n])).length ≤ MAX_PATH_LENGTH) :
    tree_remove s (pathOf (cs ++ [n])) =
      match resolveC s 0 cs with
      | none => (ENOENT, s)
      | some parent =>
        match child s parent n with
        | none => (ENOENT, s)
        | some node =>
          match getNode s node with
          | none => (ENOENT, s)
          | some nd =>
            if nd.map ≠ [] then (ENOTEMPTY, s)
            else
              (SUCCESS,
                delNode (setNode s parent
                  (fun nd' => { nd' with map := hmap_remove n nd'.map })) node) := by
  have hslash : ∀ m ∈ cs ++ [n], '/' ∉ m := fun m hm => (valid_name_facts (hnames m hm)).2.1
  have hcs : ∀ m ∈ cs, '/' ∉ m := fun m hm => hslash m (List.mem_append_left _ hm)
  have hn : '/' ∉ n := hslash n (List.mem_append_right _ (List.mem_cons_self _ _))
  have hv : is_path_valid (pathOf (cs ++ [n])) = true := valid_intro hnames hlen
  unfold tree_remove
  rw [if_neg (not_not_intro hv), make_path_to_parent_concat hcs hn]
  simp only []
  rw [lock_path_pathOf hcs]

/-- The heap after the success mutation of `tree_remove`, node by node. -/
theorem remove_getNode (s : TreeState) (par : Nat) (n : Name) (node j : Nat) :
    getNode (delNode (setNode s par
        (fun nd' => { nd' with map := hmap_remove n nd'.map })) node) j =
      if j = node then none
      else if j = par then
        Option.map (fun nd' => { nd' with map := hmap_remove n nd'.map }) (getNode s j)
      else getNode s j := by
  rw [getNode_del, getNode_set]

/-- A child edge not involving the removed node survives the removal. -/
theorem remove_child_other {s : TreeState} {par : Nat} {pnd : Node}
    (hpar : getNode s par = some pnd) {n : Name} {node : Nat}
    (hget : hmap_get n pnd.map = some node)
    {j c : Nat} {m : Name} (hj : j ≠ node) (hc : c ≠ node)
    (h : child s j m = some c) :
    child (delNode (setNode s par
      (fun nd' => { nd' with map := hmap_remove n nd'.map })) node) j m = some c := by
  unfold child at h ⊢
  rw [remove_getNode, if_neg hj]
  by_cases hjp : j = par
  · subst hjp
    rw [if_pos rfl, hpar]
    rw [hpar] at h
    have h' : hmap_get m pnd.map = some c := h
    show hmap_get m (hmap_remove n pnd.map) = some c
    have hmn : m ≠ n := by
      intro he
      rw [he, hget] at h'
      exact hc (Option.some.inj h').symm
    rw [hmap_get_remove_ne hmn]
    exact h'
  · rw [if_neg hjp]
    exact h

/-- A child edge after a removal existed before it and does not point at
the removed node. -/
theorem remove_child_back {s : TreeState} (w : WF s) {par : Nat} {pnd : Node}
    (hpar : getNode s par = some pnd) {n : Name} {node : Nat}
    (hget : hmap_get n pnd.map = some node)
    {j c : Nat} {m : Name}
    (h : child (delNode (setNode s par
      (fun nd' => { nd' with map := hmap_remove n nd'.map })) node) j m = some c) :
    child s j m = some c ∧ c ≠ node := by
  have hedge : Edge s par n node := ⟨pnd, hpar, hmap_get_mem hget⟩
  unfold child at h
  rw [remove_getNode] at h
  by_cases hj : j = node
  · rw [if_pos hj] at h
    exact Option.noConfusion h
  · rw [if_neg hj] at h
    by_cases hjp : j = par
    · subst hjp
      rw [if_pos rfl, hpar] at h
      have h' : hmap_get m (hmap_remove n pnd.map) = some c := h
      have hmn : m ≠ n := by
        intro he
        rw [he, hmap_get_remove_self (w.maps_nodup j pnd hpar)] at h'
        exact Option.noConfusion h'
      rw [hmap_get_remove_ne hmn] at h'
      have hcs : child s j m = some c := by
        unfold child
        rw [hpar]
        exact h'
      refine ⟨hcs, ?_⟩
      intro hcn
      subst hcn
      exact hmn (edge_unique w (edge_of_child hcs) hedge).2
    · rw [if_neg hjp] at h
      have hcs : child s j m = some c := by
        unfold child
        exact h
      refine ⟨hcs, ?_⟩
      intro hcn
      subst hcn
      exact hjp (edge_unique w (edge_of_child hcs) hedge).1

/-- A descent that never visits the removed node is unaffected by the
removal. -/
theorem remove_resolve_fwd {s : TreeState} {par : Nat} {pnd : Node}
    (hpar : getNode s par = some pnd) {n : Name} {node : Nat}
    (hget : hmap_get n pnd.map = some node) :
    ∀ (q : List Name) (j id : Nat), resolveC s j q = some id →
      (∀ q1 q2, q = q1 ++ q2 → resolveC s j q1 ≠ some node) →
      resolveC (delNode (setNode s par
        (fun nd' => { nd' with map := hmap_remove n nd'.map })) node) j q = some id := by
  intro q
  induction q with
  | nil =>
    intro j id h _
    exact h
  | cons m t ih =>
    intro j id h hav
    simp only [resolveC] at h ⊢
    cases hc : child s j m with
    | none => rw [hc] at h; exact Option.noConfusion h
    | some c =>
      rw [hc] at h
      have hj : j ≠ node := by
        intro he
        exact hav [] (m :: t) rfl (by rw [resolveC, he])
      have hcn : c ≠ node := by
        intro he
        refine hav [m] t rfl ?_
        show resolveC s j [m] = some node
        simp only [resolveC]
        rw [hc]
        show some c = some node
        rw [he]
      rw [remove_child_other hpar hget hj hcn hc]
      refine ih c id h ?_
      intro q1 q2 hq hx
      refine hav (m :: q1) q2 (by rw [hq, List.cons_append]) ?_
      show resolveC s j (m :: q1) = some node
      simp only [resolveC]
      rw [hc]
      exact hx

/-- A descent after a removal also succeeds before it and, unless empty,
does not end at the removed node. -/
theorem remove_resolve_back {s : TreeState} (w : WF s) {par : Nat} {pnd : Node}
    (hpar : getNode s par = some pnd) {n : Name} {node : Nat}
    (hget : hmap_get n pnd.map = some node) :
    ∀ (q : List Name) (j id : Nat), j ≠ node →
      resolveC (delNode (setNode s par
        (fun nd' => { nd' with map := hmap_remove n nd'.map })) node) j q = some id →
      resolveC s j q = some id ∧ (q = [] ∨ id ≠ node) := by
  intro q
  induction q with
  | nil =>
    intro j id _ h
    exact ⟨h, Or.inl rfl⟩
  | cons m t ih =>
    intro j id _ h
    simp only [resolveC] at h ⊢
    cases hc : child (delNode (setNode s par
        (fun nd' => { nd' with map := hmap_remove n nd'.map })) node) j m with
    | none => rw [hc] at h; exact Option.noConfusion h
    | some c =>
      rw [hc] at h
      obtain ⟨hcs, hcn⟩ := remove_child_back w hpar hget hc
      rw [hcs]
      obtain ⟨h1, h2⟩ := ih c id hcn h
      refine ⟨h1, Or.inr ?_⟩
      rcases h2 with heq | hidn
      · subst heq
        have hic : c = id := Option.some.inj h1
        exact hic ▸ hcn
      · exact hidn

/-- C6: `tree_remove` returns `EINVAL` on an invalid path, `EBUSY` on the
root path, `ENOENT` when the parent path or the named child is absent,
`ENOTEMPTY` (tree unchanged) when the named child has children, and
otherwise succeeds, the removed path being the only one that stops
existing. -/
theorem c6_remove_semantics (s : TreeState) (hs : Reachable s) (p : List Char) :
    (is_path_valid p = false → tree_remove s p = (EINVAL, s)) ∧
    (p = ['/'] → tree_remove s p = (EBUSY, s)) ∧
    (∀ cs n, p = pathOf (cs ++ [n]) → (∀ m ∈ cs ++ [n], valid_name m = true) →
      p.length ≤ MAX_PATH_LENGTH →
      ((resolveC s 0 cs = none → tree_remove s p = (ENOENT, s)) ∧
       (∀ par, resolveC s 0 cs = some par → child s par n = none →
         tree_remove s p = (ENOENT, s)) ∧
       (∀ par node nnd, resolveC s 0 cs = some par → child s par n = some node →
         getNode s node = some nnd → nnd.map ≠ [] →
         tree_remove s p = (ENOTEMPTY, s)) ∧
       (∀ par node nnd, resolveC s 0 cs = some par → child s par n = some node →
         getNode s node = some nnd → nnd.map = [] →
         (tree_remove s p).1 = SUCCESS ∧
         ∀ q, pathExists (tree_remove s p).2 q ↔
           (pathExists s q ∧ q ≠ cs ++ [n])))) := by
  have w := reachable_wf hs
  refine ⟨?_, ?_, ?_⟩
  · intro hval
    unfold tree_remove
    rw [if_pos (by simp [hval])]
  · intro hp
    subst hp
    unfold tree_remove
    rw [if_neg (by decide)]
    rfl
  · intro cs n hp hnames hlen
    subst hp
    have hrm := tree_remove_eq s hnames hlen
    refine ⟨?_, ?_, ?_, ?_⟩
    · intro h0
      rw [hrm, h0]
    · intro par h1 h2
      rw [hrm, h1]
      simp only []
      rw [h2]
    · intro par node nnd h1 h2 h3 h4
      rw [hrm, h1]
      simp only []
      rw [h2]
      simp only []
      rw [h3]
      simp only []
      rw [if_pos h4]
    · intro par node nnd h1 h2 h3 h4
      obtain ⟨pnd, hpnd⟩ := child_some_getNode h2
      have hginner : hmap_get n pnd.map = some node := by
        have hx := h2
        unfold child at hx
        rw [hpnd] at hx
        exact hx
      have hnode0 : node ≠ 0 :=
        (w.edge_down par pnd hpnd (n, node) (hmap_get_mem hginner)).1
      have hpath_node : resolveC s 0 (cs ++ [n]) = some node := by
        rw [resolveC_append, h1]
        show resolveC s par [n] = some node
        simp only [resolveC]
        rw [h2]
      have hrm2 : tree_remove s (pathOf (cs ++ [n])) =
          (SUCCESS, delNode (setNode s par
            (fun nd' => { nd' with map := hmap_remove n nd'.map })) node) := by
        rw [hrm, h1]
        simp only []
        rw [h2]
        simp only []
        rw [h3]
        simp only []
        rw [if_neg (by simp [h4])]
      rw [hrm2]
      refine ⟨rfl, ?_⟩
      intro q
      constructor
      · rintro ⟨id, hid⟩
        obtain ⟨hres, hor⟩ := remove_resolve_back w hpnd hginner q 0 id
          (fun he => hnode0 he.symm) hid
        refine ⟨⟨id, hres⟩, ?_⟩
        intro hq
        subst hq
        rw [hpath_node] at hres
        have hidn := Option.some.inj hres
        rcases hor with hq0 | hid2
        · exact (by simp : (cs ++ [n] : List Name) ≠ []) hq0
        · exact hid2 hidn.symm
      · rintro ⟨⟨id, hid⟩, hqne⟩
        refine ⟨id, remove_resolve_fwd hpnd hginner q 0 id hid ?_⟩
        intro q1 q2 hq hvisit
        have hq1 : q1 = cs ++ [n] := resolveC_inj w q1 (cs ++ [n]) node hvisit hpath_node
        subst hq1
        cases q2 with
        | nil => exact hqne (by rw [hq, List.append_nil])
        | cons m t =>
          have hz : resolveC s 0 q = none := by
            rw [hq, resolveC_append, hpath_node]
            show resolveC s node (m :: t) = none
            simp only [resolveC]
            rw [show child s node m = none from by
              unfold child
              rw [h3]
              show hmap_get m nnd.map = none
              rw [h4]
              rfl]
          rw [hz] at hid
          exact Option.noConfusion hid

/-- C6 witness: removing the absent folder `/a/` from the fresh tree
misses with `ENOENT` and leaves the tree unchanged. -/
theorem c6_witness :
    tree_remove tree_new (pathOf [['a']]) = (ENOENT, tree_new) :=
  ((c6_remove_semantics tree_new Reachable.init (pathOf [['a']])).2.2 [] ['a'] rfl
    (by decide) (by decide)).2.1 0 rfl (by decide)

/-- The heap right after the success mutation of `tree_create`, node by
node. -/
theorem create_getNode (s : TreeState) (par : Nat) (n : Name) (j : Nat) :
    getNode
      { nodes := (s.next, { map := [], parent := some par }) ::
          (setNode s par (fun nd => { nd with map := hmap_insert n s.next nd.map })).nodes,
        next := s.next + 1 } j =
      if s.next = j then some { map := [], parent := some par }
      else if j = par then
        Option.map (fun nd => { nd with map := hmap_insert n s.next nd.map }) (getNode s j)
      else getNode s j := by
  show (if s.next = j then some { map := [], parent := some par }
      else storeGet j (setNode s par
        (fun nd => { nd with map := hmap_insert n s.next nd.map })).nodes) = _
  by_cases hj : s.next = j
  · rw [if_pos hj, if_pos hj]
  · rw [if_neg hj, if_neg hj]
    exact getNode_set s par _ j

/-- A child edge of the old heap survives the creation. -/
theorem create_child_fwd {s : TreeState} (w : WF s) {par : Nat} {pnd : Node}
    (hpar : getNode s par = some pnd) {n : Name}
    (habs : hmap_get n pnd.map = none)
    {j c : Nat} {m : Name} (h : child s j m = some c) :
    child
      { nodes := (s.next, { map := [], parent := some par }) ::
          (setNode s par (fun nd => { nd with map := hmap_insert n s.next nd.map })).nodes,
        next := s.next + 1 } j m = some c := by
  obtain ⟨jnd, hjnd⟩ := child_some_getNode h
  have hjlt : j < s.next := w.fresh j jnd hjnd
  have hnj : s.next ≠ j := by omega
  unfold child at h ⊢
  rw [create_getNode, if_neg hnj]
  by_cases hjp : j = par
  · subst hjp
    rw [if_pos rfl, hpar]
    rw [hpar] at h
    have h' : hmap_get m pnd.map = some c := h
    show hmap_get m (hmap_insert n s.next pnd.map) = some c
    show (if n = m then some s.next else hmap_get m pnd.map) = some c
    have hnm : ¬ (n = m) := by
      intro he
      rw [← he] at h'
      rw [habs] at h'
      exact Option.noConfusion h'
    rw [if_neg hnm]
    exact h'
  · rw [if_neg hjp]
    exact h

/-- A descent of the old heap is unaffected by the creation. -/
theorem create_resolve_fwd {s : TreeState} (w : WF s) {par : Nat} {pnd : Node}
    (hpar : getNode s par = some pnd) {n : Name}
    (habs : hmap_get n pnd.map = none) :
    ∀ (q : List Name) (j id : Nat), resolveC s j q = some id →
      resolveC
        { nodes := (s.next, { map := [], parent := some par }) ::
            (setNode s par (fun nd => { nd with map := hmap_insert n s.next nd.map })).nodes,
          next := s.next + 1 } j q = some id := by
  intro q
  induction q with
  | nil =>
    intro j id h
    exact h
  | cons m t ih =>
    intro j id h
    simp only [resolveC] at h ⊢
    cases hc : child s j m with
    | none => rw [hc] at h; exact Option.noConfusion h
    | some c =>
      rw [hc] at h
      rw [create_child_fwd w hpar habs hc]
      exact ih c id h

/-- Descents depend only on the heap list. -/
theorem resolveC_nodes_congr {s t : TreeState} (h : s.nodes = t.nodes) :
    ∀ (q : List Name) (j : Nat), resolveC s j q = resolveC t j q := by
  intro q
  induction q with
  | nil => intro j; rfl
  | cons m u ih =>
    intro j
    simp only [resolveC]
    have hc : child s j m = child t j m := by
      unfold child getNode
      rw [h]
    rw [hc]
    cases child t j m with
    | none => rfl
    | some c => exact ih c

/-- Removing the node just created restores the old heap list exactly. -/
theorem create_remove_nodes {s : TreeState} (w : WF s) {parent : Nat} {pnd : Node}
    (hpar : getNode s parent = some pnd) (n : Name) :
    (delNode (setNode
      { nodes := (s.next, { map := [], parent := some parent }) ::
          (setNode s parent
            (fun nd => { nd with map := hmap_insert n s.next nd.map })).nodes,
        next := s.next + 1 } parent
      (fun nd' => { nd' with map := hmap_remove n nd'.map })) s.next).nodes = s.nodes := by
  have hnp : s.next ≠ parent := by
    have := w.fresh parent pnd hpar
    omega
  have hcomp : ((fun e : Nat × Node => if e.1 = parent then
        (e.1, { map := hmap_remove n e.2.map, parent := e.2.parent }) else e) ∘
      (fun e : Nat × Node => if e.1 = parent then
        (e.1, { map := hmap_insert n s.next e.2.map, parent := e.2.parent }) else e)) = id := by
    funext e
    obtain ⟨k, v⟩ := e
    simp only [Function.comp_apply, id_eq]
    by_cases hk : k = parent
    · subst hk
      simp [hmap_insert, hmap_remove]
    · simp [hk]
  have hkeys : ∀ e ∈ s.nodes, decide (e.1 ≠ s.next) = true := by
    intro e he
    simp only [decide_eq_true_eq]
    obtain ⟨nd, hnd⟩ := storeGet_of_mem_keys (List.mem_map_of_mem (fun x => x.1) he)
    have := w.fresh e.1 nd hnd
    omega
  show List.filter (fun e => decide (e.1 ≠ s.next))
      (List.map (fun e => if e.1 = parent then
        (e.1, { map := hmap_remove n e.2.map, parent := e.2.parent }) else e)
        ((s.next, { map := [], parent := some parent }) ::
          List.map (fun e => if e.1 = parent then
            (e.1, { map := hmap_insert n s.next e.2.map, parent := e.2.parent }) else e)
            s.nodes)) = s.nodes
  rw [List.map_cons]
  simp only []
  rw [if_neg hnp]
  rw [List.filter_cons]
  rw [if_neg (by simp)]
  rw [List.map_map, hcomp, List.map_id]
  exact List.filter_eq_self.mpr hkeys

/-- C8: on any reachable tree, a `tree_create` that succeeds followed at
once by `tree_remove` of the same path succeeds and restores the heap
list — hence the set of existing paths and all child maps — exactly (only
the allocation counter advances). -/
theorem c8_create_remove_roundtrip (s : TreeState) (hs : Reachable s) (p : List Char)
    (hc : (tree_create s p).1 = SUCCESS) :
    (tree_remove (tree_create s p).2 p).1 = SUCCESS ∧
    (tree_remove (tree_create s p).2 p).2.nodes = s.nodes ∧
    (∀ q, pathExists (tree_remove (tree_create s p).2 p).2 q ↔ pathExists s q) := by
  have w := reachable_wf hs
  unfold tree_create at hc
  split at hc
  · have hx : EINVAL = SUCCESS := hc
    exact absurd hx (by decide)
  rename_i hval
  split at hc
  · have hx : EEXIST = SUCCESS := hc
    exact absurd hx (by decide)
  rename_i hroot
  split at hc
  · have hx : EINVAL = SUCCESS := hc
    exact absurd hx (by decide)
  rename_i pp comp heqm
  split at hc
  · have hx : ENOENT = SUCCESS := hc
    exact absurd hx (by decide)
  rename_i parent heql
  split at hc
  · have hx : EEXIST = SUCCESS := hc
    exact absurd hx (by decide)
  rename_i heqc
  obtain ⟨S, hSeq, hSnames, hSlen⟩ := valid_elim (not_not.mp hval)
  have hrootne : p ≠ ['/'] := by
    intro he
    exact hroot (by rw [is_root, he]; rfl)
  have hSne : S ≠ [] := by
    intro he
    rw [he] at hSeq
    exact hrootne hSeq
  obtain ⟨cs, n, rfl⟩ : ∃ cs n, S = cs ++ [n] := by
    rcases List.eq_nil_or_concat S with h | ⟨a, b, h⟩
    · exact absurd h hSne
    · exact ⟨a, b, by rw [h, List.concat_eq_append]⟩
  subst hSeq
  have hslash : ∀ m ∈ cs ++ [n], '/' ∉ m := fun m hm => (valid_name_facts (hSnames m hm)).2.1
  have hcs' : ∀ m ∈ cs, '/' ∉ m := fun m hm => hslash m (List.mem_append_left _ hm)
  have hn' : '/' ∉ n := hslash n (List.mem_append_right _ (List.mem_cons_self _ _))
  rw [make_path_to_parent_concat hcs' hn'] at heqm
  injection heqm with heqm
  have h1 := (Prod.mk.injEq .. ▸ heqm).1
  have h2 := (Prod.mk.injEq .. ▸ heqm).2
  subst h1
  subst h2
  rw [lock_path_pathOf hcs'] at heql
  obtain ⟨pnd, hpnd⟩ : ∃ nd, getNode s parent = some nd := by
    obtain ⟨rnd, hr, _⟩ := w.root_present
    exact resolveC_some_dom w cs 0 parent ⟨rnd, hr⟩ heql
  have habs : hmap_get n pnd.map = none := by
    have hx := heqc
    unfold child at hx
    rw [hpnd] at hx
    exact hx
  have htc2 : (tree_create s (pathOf (cs ++ [n]))).2 =
      { nodes := (s.next, { map := [], parent := some parent }) ::
          (setNode s parent
            (fun nd => { nd with map := hmap_insert n s.next nd.map })).nodes,
        next := s.next + 1 } := by
    rw [tree_create_eq s hSnames hSlen, heql]
    simp only []
    rw [heqc]
  have hnp : s.next ≠ parent := by
    have := w.fresh parent pnd hpnd
    omega
  have hres1 : resolveC (tree_create s (pathOf (cs ++ [n]))).2 0 cs = some parent := by
    rw [htc2]
    exact create_resolve_fwd w hpnd habs cs 0 parent heql
  have hchild1 : child (tree_create s (pathOf (cs ++ [n]))).2 parent n = some s.next := by
    rw [htc2]
    unfold child
    rw [create_getNode, if_neg hnp, if_pos rfl, hpnd]
    show (if n = n then some s.next else hmap_get n pnd.map) = some s.next
    rw [if_pos rfl]
  have hget1 : getNode (tree_create s (pathOf (cs ++ [n]))).2 s.next =
      some { map := [], parent := some parent } := by
    rw [htc2, create_getNode, if_pos rfl]
  have hrm : tree_remove (tree_create s (pathOf (cs ++ [n]))).2 (pathOf (cs ++ [n])) =
      (SUCCESS, delNode (setNode (tree_create s (pathOf (cs ++ [n]))).2 parent
        (fun nd' => { nd' with map := hmap_remove n nd'.map })) s.next) := by
    rw [tree_remove_eq _ hSnames hSlen, hres1]
    simp only []
    rw [hchild1]
    simp only []
    rw [hget1]
    simp only []
    rw [if_neg (by simp)]
  have hnodes : (tree_remove (tree_create s (pathOf (cs ++ [n]))).2
      (pathOf (cs ++ [n]))).2.nodes = s.nodes := by
    rw [hrm]
    show (delNode (setNode (tree_create s (pathOf (cs ++ [n]))).2 parent
      (fun nd' => { nd' with map := hmap_remove n nd'.map })) s.next).nodes = s.nodes
    rw [htc2]
    exact create_remove_nodes w hpnd n
  refine ⟨?_, hnodes, ?_⟩
  · rw [hrm]
  · intro q
    unfold pathExists
    rw [resolveC_nodes_congr hnodes q 0]

/-- C8 witness: creating `/a/` on the fresh tree succeeds, and removing
it again succeeds and restores the fresh heap. -/
theorem c8_witness :
    (tree_remove (tree_create tree_new (pathOf [['a']])).2 (pathOf [['a']])).1 = SUCCESS ∧
    (tree_remove (tree_create tree_new (pathOf [['a']])).2 (pathOf [['a']])).2.nodes =
      tree_new.nodes ∧
    (∀ q, pathExists (tree_remove (tree_create tree_new (pathOf [['a']])).2
      (pathOf [['a']])).2 q ↔ pathExists tree_new q) :=
  c8_create_remove_roundtrip tree_new Reachable.init (pathOf [['a']]) (by decide)

/-- Parsing after a rendered name and its separator peels that name
off. -/
theorem splitNames_sep {n : Name} (hn : ',' ∉ n) (r : List Char) :
    splitNames (n ++ ',' :: r) = n :: splitNames r := by
  induction n with
  | nil =>
    show splitNames (',' :: r) = [] :: splitNames r
    simp [splitNames]
  | cons c n ih =>
    have hc : c ≠ ',' := fun h => hn (h ▸ List.mem_cons_self c n)
    have hn' : ',' ∉ n := fun h => hn (List.mem_cons_of_mem c h)
    show splitNames (c :: (n ++ ',' :: r)) = (c :: n) :: splitNames r
    simp only [splitNames, if_neg hc]
    rw [ih hn']

/-- A single rendered name parses back to itself. -/
theorem splitNames_single {n : Name} (hne : n ≠ []) (hn : ',' ∉ n) :
    splitNames n = [n] := by
  induction n with
  | nil => exact absurd rfl hne
  | cons c n ih =>
    have hc : c ≠ ',' := fun h => hn (h ▸ List.mem_cons_self c n)
    have hn' : ',' ∉ n := fun h => hn (List.mem_cons_of_mem c h)
    show splitNames (c :: n) = [c :: n]
    simp only [splitNames, if_neg hc]
    cases n with
    | nil => rfl
    | cons d t => rw [ih (by simp) hn']

/-- The listing renderer is parsed back exactly on nonempty `,`-free
names. -/
theorem splitNames_joinNames : ∀ {ns : List Name},
    (∀ m ∈ ns, m ≠ [] ∧ ',' ∉ m) → splitNames (joinNames ns) = ns := by
  intro ns
  induction ns with
  | nil => intro _; rfl
  | cons m t ih =>
    intro h
    obtain ⟨hm1, hm2⟩ := h m (List.mem_cons_self m t)
    cases t with
    | nil =>
      show splitNames (joinNames [m]) = [m]
      exact splitNames_single hm1 hm2
    | cons m2 t2 =>
      show splitNames (m ++ ',' :: joinNames (m2 :: t2)) = m :: m2 :: t2
      rw [splitNames_sep hm2]
      rw [ih (fun x hx => h x (List.mem_cons_of_mem m hx))]

/-- C9: `tree_list` returns `none` exactly when the path is invalid or a
node on it does not exist; on a resolvable valid path it returns the
rendering of the target node's child names, which parses back to exactly
that name list.  (The embedding of `tree_list` is a pure function of the
state, so the call leaves the tree unchanged by construction.) -/
theorem c9_list_semantics (s : TreeState) (hs : Reachable s) (p : List Char) :
    (is_path_valid p = false → tree_list s p = none) ∧
    (∀ cs, p = pathOf cs → (∀ m ∈ cs, valid_name m = true) →
      p.length ≤ MAX_PATH_LENGTH →
      ((resolveC s 0 cs = none → tree_list s p = none) ∧
       (∀ id, resolveC s 0 cs = some id →
         ∃ nd, getNode s id = some nd ∧
           tree_list s p = some (make_map_contents_string nd.map) ∧
           splitNames (make_map_contents_string nd.map) =
             nd.map.map (fun e => e.1)))) := by
  have w := reachable_wf hs
  refine ⟨?_, ?_⟩
  · intro hval
    unfold tree_list
    rw [if_pos (by simp [hval])]
  · intro cs hp hnames hlen
    subst hp
    have hslash : ∀ m ∈ cs, '/' ∉ m := fun m hm => (valid_name_facts (hnames m hm)).2.1
    have hv : is_path_valid (pathOf cs) = true := valid_intro hnames hlen
    refine ⟨?_, ?_⟩
    · intro h0
      unfold tree_list
      rw [if_neg (not_not_intro hv), lock_path_pathOf hslash, h0]
    · intro id hid
      obtain ⟨rnd, hr, _⟩ := w.root_present
      obtain ⟨nd, hnd⟩ := resolveC_some_dom w cs 0 id ⟨rnd, hr⟩ hid
      refine ⟨nd, hnd, ?_, ?_⟩
      · unfold tree_list
        rw [if_neg (not_not_intro hv), lock_path_pathOf hslash, hid]
        simp only []
        rw [hnd]
      · show splitNames (joinNames (nd.map.map (fun e => e.1))) =
          nd.map.map (fun e => e.1)
        refine splitNames_joinNames ?_
        intro m hm
        obtain ⟨e, he, hev⟩ := List.mem_map.mp hm
        have hv2 := valid_name_facts (w.names_valid id nd hnd e he)
        exact ⟨hev ▸ hv2.1, hev ▸ hv2.2.2⟩

/-- C9 witness: listing the root of the fresh tree yields the rendering
of its (empty) child map, which parses back to the empty name list. -/
theorem c9_witness :
    ∃ nd, getNode tree_new 0 = some nd ∧
      tree_list tree_new (pathOf []) = some (make_map_contents_string nd.map) ∧
      splitNames (make_map_contents_string nd.map) = nd.map.map (fun e => e.1) :=
  ((c9_list_semantics tree_new Reachable.init (pathOf [])).2 [] rfl
    (by decide) (by decide)).2 0 rfl

end SystemPlikow
